import Mathlib

/-!
Shallow embedding of `src/functions.py` (kidney_uae repository).

The file embeds the two functions the claims are about:

* `evaluate_model_metrics` (source lines 473-557): computes, for every model
  in an insertion-ordered model map, seven classification metrics via the
  sklearn primitives `roc_curve`, `auc`, `precision_recall_curve`,
  `precision_score`, `recall_score`, `confusion_matrix`,
  `average_precision_score` and `brier_score_loss`, then picks a best model
  per metric with pandas `idxmax` / `idxmin`.
* `move_column_before` (source lines 33-76): reorders a DataFrame's columns.

Real numbers are modelled by `ℚ` (all quantities in the source are finite
ratios of machine floats; no claim depends on float rounding).  IEEE `nan`
(which numpy produces on the 0/0 divisions occurring in degenerate inputs)
is modelled by `none : Option ℚ`; a comparison involving `nan` is `false`,
and arithmetic involving `nan` yields `nan`, exactly as in IEEE/numpy.
Python exceptions are modelled by `Except PyErr`.
-/

/-- A Python exception escaping the embedded code (only `ValueError`
variants occur in the modelled paths). -/
inductive PyErr where
  | valueError (msg : String)
deriving DecidableEq, Repr

/-- `nan`-propagating addition (numpy float semantics). -/
def oadd : Option ℚ → Option ℚ → Option ℚ
  | some a, some b => some (a + b)
  | _, _ => none

/-- `nan`-propagating subtraction. -/
def osub : Option ℚ → Option ℚ → Option ℚ
  | some a, some b => some (a - b)
  | _, _ => none

/-- `nan`-propagating multiplication.  (In the embedded code a `nan` is
never multiplied by `0`, so `nan * 0 = nan` matches numpy on every
reachable value.) -/
def omul : Option ℚ → Option ℚ → Option ℚ
  | some a, some b => some (a * b)
  | _, _ => none

/-- `nan`-propagating halving. -/
def ohalf : Option ℚ → Option ℚ
  | some a => some (a / 2)
  | none => none

/-- `nan`-propagating negation. -/
def oneg : Option ℚ → Option ℚ
  | some a => some (-a)
  | none => none

/-- numpy float division.  In the embedded code every division with a zero
denominator has a zero numerator (cumulative counts), so the result is the
`nan` of `0/0`; a nonzero denominator gives the exact quotient. -/
def qdiv0 (a b : ℚ) : Option ℚ := if b = 0 then none else some (a / b)

/-- `<` on possibly-`nan` floats: any comparison with `nan` is `false`. -/
def oLt : Option ℚ → Option ℚ → Bool
  | some a, some b => decide (a < b)
  | _, _ => false

/-- `≤` on possibly-`nan` floats: any comparison with `nan` is `false`. -/
def oLe : Option ℚ → Option ℚ → Bool
  | some a, some b => decide (a ≤ b)
  | _, _ => false

/-- Insert a value into a descending-sorted list (helper for the
descending sort used by sklearn's threshold construction). -/
def insertDesc (v : ℚ) : List ℚ → List ℚ
  | [] => [v]
  | w :: ws => if w ≤ v then v :: w :: ws else w :: insertDesc v ws

/-- Sort a list of rationals in descending order. -/
def sortDesc : List ℚ → List ℚ
  | [] => []
  | v :: vs => insertDesc v (sortDesc vs)

/-- Insert a value into an ascending-sorted list. -/
def insertAsc (v : ℚ) : List ℚ → List ℚ
  | [] => [v]
  | w :: ws => if v ≤ w then v :: w :: ws else w :: insertAsc v ws

/-- Sort a list of rationals in ascending order (as `np.unique` returns
its classes ascending in `confusion_matrix`). -/
def sortAsc : List ℚ → List ℚ
  | [] => []
  | v :: vs => insertAsc v (sortAsc vs)

/-- The distinct decision thresholds sklearn's `_binary_clf_curve` scans:
the distinct predicted scores, in descending order. -/
def thresholdsDesc (p : List ℚ) : List ℚ := sortDesc p.dedup

/-- Cumulative true positives at threshold `v`: the number of samples with
label `1` and score at least `v` (sklearn's `tps` at the corresponding
scan position). -/
def tpsAt (y p : List ℚ) (v : ℚ) : ℕ :=
  (y.zip p).countP (fun s => decide (s.1 = 1 ∧ v ≤ s.2))

/-- Cumulative false positives at threshold `v`: the number of samples
with label other than `1` and score at least `v`. -/
def fpsAt (y p : List ℚ) (v : ℚ) : ℕ :=
  (y.zip p).countP (fun s => decide (¬ s.1 = 1 ∧ v ≤ s.2))

/-- sklearn `roc_curve(y, p)` reduced to the pair `(fpr, tpr)` the source
uses (the thresholds output is discarded by the source).  Faithful to
sklearn: a consistent-length check, the `pos_label` inference check (the
labels must be a nonempty subset of the binary set; sklearn also accepts
`-1` encodings, which the source never produces), the cumulative counts at
the distinct descending thresholds with the prepended origin point, and
division by the final counts.  `drop_intermediate=True` removes only
midpoints of collinear segments, which leaves the trapezoidal area - the
only use the source makes of the arrays - unchanged, so it is not
re-modelled here. -/
def roc_curve (y p : List ℚ) : Except PyErr (List (Option ℚ) × List (Option ℚ)) :=
  if ¬ y.length = p.length then
    .error (.valueError "Found input variables with inconsistent numbers of samples")
  else if y = [] ∨ ¬ y.all (fun v => decide (v = 0 ∨ v = 1)) then
    .error (.valueError "y_true takes values not reducible to binary and pos_label is not specified")
  else
    .ok (((0 : ℕ) :: (thresholdsDesc p).map (fpsAt y p)).map
           (fun c : ℕ => qdiv0 ((c : ℕ) : ℚ)
             ((((0 : ℕ) :: (thresholdsDesc p).map (fpsAt y p)).getLastD 0 : ℕ) : ℚ)),
         ((0 : ℕ) :: (thresholdsDesc p).map (tpsAt y p)).map
           (fun c : ℕ => qdiv0 ((c : ℕ) : ℚ)
             ((((0 : ℕ) :: (thresholdsDesc p).map (tpsAt y p)).getLastD 0 : ℕ) : ℚ)))

/-- `dx < 0` somewhere among adjacent pairs (nan compares `false`, as in
numpy), mirroring `np.any(np.diff(x) < 0)` in sklearn's `auc`. -/
def anyDxNeg : List (Option ℚ) → Bool
  | a :: b :: rest => oLt b a || anyDxNeg (b :: rest)
  | _ => false

/-- `dx ≤ 0` everywhere among adjacent pairs, mirroring
`np.all(np.diff(x) <= 0)`. -/
def allDxLe : List (Option ℚ) → Bool
  | a :: b :: rest => oLe b a && allDxLe (b :: rest)
  | _ => true

/-- `np.trapz(y, x)` on the zipped point list: the sum of the signed
trapezoid areas, with `nan` propagation. -/
def trapzO : List (Option ℚ × Option ℚ) → Option ℚ
  | a :: b :: rest => oadd (omul (osub b.1 a.1) (ohalf (oadd a.2 b.2))) (trapzO (b :: rest))
  | _ => some 0

/-- sklearn `auc(x, y)`: requires at least two points; decides an
integration direction from the monotonicity of `x` (raising when `x` is
strictly mixed); returns `direction * np.trapz(y, x)`. -/
def auc (x yv : List (Option ℚ)) : Except PyErr (Option ℚ) :=
  if x.length < 2 then
    .error (.valueError "At least 2 points are needed to compute area under curve")
  else if anyDxNeg x then
    if allDxLe x then .ok (oneg (trapzO (x.zip yv)))
    else .error (.valueError "x is neither increasing nor decreasing")
  else .ok (trapzO (x.zip yv))

/-- sklearn `precision_recall_curve(y, p)` reduced to the
`(precision, recall)` pair the source uses.  Precision at each scanned
threshold (with sklearn's explicit 0 fill where `tps + fps = 0`), recall
as `tps` over the final `tps`, arrays reversed and the final
`(precision, recall) = (1, 0)` point appended.  sklearn additionally
truncates the scan at full recall; the truncated segment has constant
recall, so both the trapezoidal area over the recall axis and the
recall-difference sums computed from these arrays are unchanged, and the
truncation is not re-modelled. -/
def precision_recall_curve (y p : List ℚ) : List ℚ × List (Option ℚ) :=
  (((thresholdsDesc p).map (fun v =>
      if tpsAt y p v + fpsAt y p v = 0 then 0
      else ((tpsAt y p v : ℕ) : ℚ) /
        (((tpsAt y p v : ℕ) : ℚ) + ((fpsAt y p v : ℕ) : ℚ)))).reverse ++ [1],
   (((thresholdsDesc p).map (tpsAt y p)).map
      (fun c : ℕ => qdiv0 ((c : ℕ) : ℚ)
        ((((thresholdsDesc p).map (tpsAt y p)).getLastD 0 : ℕ) : ℚ))).reverse ++ [some 0])

/-- `-np.sum(np.diff(recall) * precision[:-1])`, written as the sum of
`(recall_j - recall_{j+1}) * precision_j` over adjacent recall pairs. -/
def apDiffs : List (Option ℚ) → List ℚ → Option ℚ
  | r0 :: r1 :: rt, p0 :: pt => oadd (omul (osub r0 r1) (some p0)) (apDiffs (r1 :: rt) pt)
  | _, _ => some 0

/-- sklearn `average_precision_score(y, p)` for binary labels: recomputes
the precision-recall arrays and sums precision weighted by recall
decrements. -/
def average_precision_score (y p : List ℚ) : Option ℚ :=
  apDiffs (precision_recall_curve y p).2 (precision_recall_curve y p).1

/-- `np.where(proba > threshold, 1, 0)` (source line 512): strict
greater-than binarization. -/
def np_where_gt (p : List ℚ) (t : ℚ) : List ℚ :=
  p.map (fun v => if t < v then 1 else 0)

/-- True positives of binarized predictions (`pos_label = 1`). -/
def tpCount (y pred : List ℚ) : ℕ :=
  (y.zip pred).countP (fun s => decide (s.1 = 1 ∧ s.2 = 1))

/-- False positives of binarized predictions. -/
def fpCount (y pred : List ℚ) : ℕ :=
  (y.zip pred).countP (fun s => decide (¬ s.1 = 1 ∧ s.2 = 1))

/-- False negatives of binarized predictions. -/
def fnCount (y pred : List ℚ) : ℕ :=
  (y.zip pred).countP (fun s => decide (s.1 = 1 ∧ ¬ s.2 = 1))

/-- sklearn `precision_score` with its default `zero_division` behaviour:
`tp / (tp + fp)`, and `0` when nothing is predicted positive. -/
def precision_score (y pred : List ℚ) : ℚ :=
  if tpCount y pred + fpCount y pred = 0 then 0
  else ((tpCount y pred : ℕ) : ℚ) / (((tpCount y pred : ℕ) : ℚ) + ((fpCount y pred : ℕ) : ℚ))

/-- sklearn `recall_score` with its default `zero_division` behaviour:
`tp / (tp + fn)`, and `0` when there are no positive labels. -/
def recall_score (y pred : List ℚ) : ℚ :=
  if tpCount y pred + fnCount y pred = 0 then 0
  else ((tpCount y pred : ℕ) : ℚ) / (((tpCount y pred : ℕ) : ℚ) + ((fnCount y pred : ℕ) : ℚ))

/-- The class values `confusion_matrix` uses: the distinct values of
`y ++ pred`, ascending. -/
def cmClasses (y pred : List ℚ) : List ℚ := sortAsc (y ++ pred).dedup

/-- The number of samples with true value `a` and predicted value `b` (one
cell of the confusion matrix). -/
def countPair (y pred : List ℚ) (a b : ℚ) : ℕ :=
  (y.zip pred).countP (fun s => decide (s.1 = a ∧ s.2 = b))

/-- Source lines 517-518: `tn, fp, _, _ = confusion_matrix(y, pred).ravel()`
followed by `tn / (tn + fp)`.  The four-way unpacking succeeds exactly
when the confusion matrix is 2x2, i.e. when exactly two distinct class
values occur; otherwise Python raises a `ValueError` at the unpacking.
The division is numpy float division of the two leading cells. -/
def specificity_calc (y pred : List ℚ) : Except PyErr (Option ℚ) :=
  match cmClasses y pred with
  | [a, b] =>
    .ok (qdiv0 ((countPair y pred a a : ℕ) : ℚ)
               (((countPair y pred a a : ℕ) : ℚ) + ((countPair y pred a b : ℕ) : ℚ)))
  | _ => .error (.valueError "values to unpack mismatch for a 2x2 confusion matrix")

/-- sklearn `brier_score_loss(y, p)`: validates that the probabilities lie
in the unit interval (raising `ValueError` otherwise) and returns the mean
squared difference between probability and label.  (Its binary-label check
is subsumed by the `roc_curve` check that always runs first in the
source.) -/
def brier_score_loss (y p : List ℚ) : Except PyErr ℚ :=
  if p.any (fun v => decide (v < 0)) then
    .error (.valueError "y_prob contains values less than 0")
  else if p.any (fun v => decide (1 < v)) then
    .error (.valueError "y_prob contains values greater than 1")
  else
    .ok ((((y.zip p).map (fun s => (s.2 - s.1) ^ 2)).sum) / (((y.zip p).length : ℕ) : ℚ))

/-- One row of per-model metric values, each a possibly-`nan` float. -/
structure ModelRow where
  aucRoc : Option ℚ
  prAuc : Option ℚ
  precision : Option ℚ
  recallVal : Option ℚ
  specificity : Option ℚ
  avgPrecision : Option ℚ
  brier : Option ℚ
deriving DecidableEq, Repr

/-- The seven metric names of the output table. -/
inductive Metric where
  | aucRoc | prAuc | precision | recallVal | specificity | avgPrecision | brier
deriving DecidableEq, Repr

/-- The metric order of the source's `metrics_dict` (Python dict insertion
order, with the `"Metric"` key skipped by the best-model loop). -/
def metricOrder : List Metric :=
  [.aucRoc, .prAuc, .precision, .recallVal, .specificity, .avgPrecision, .brier]

/-- Project the value of one metric out of a row. -/
def ModelRow.get (r : ModelRow) : Metric → Option ℚ
  | .aucRoc => r.aucRoc
  | .prAuc => r.prAuc
  | .precision => r.precision
  | .recallVal => r.recallVal
  | .specificity => r.specificity
  | .avgPrecision => r.avgPrecision
  | .brier => r.brier

/-- The body of the source's per-model loop (lines 502-534): each metric
in source order, with the first raised exception aborting the whole
call. -/
def evalModelRow (y p : List ℚ) (t : ℚ) : Except PyErr ModelRow :=
  match roc_curve y p with
  | .error e => .error e
  | .ok ft =>
    match auc ft.1 ft.2 with
    | .error e => .error e
    | .ok rocAucV =>
      match auc (precision_recall_curve y p).2 ((precision_recall_curve y p).1.map some) with
      | .error e => .error e
      | .ok prAucV =>
        match specificity_calc y (np_where_gt p t) with
        | .error e => .error e
        | .ok specV =>
          match brier_score_loss y p with
          | .error e => .error e
          | .ok brierV =>
            .ok { aucRoc := rocAucV, prAuc := prAucV,
                  precision := some (precision_score y (np_where_gt p t)),
                  recallVal := some (recall_score y (np_where_gt p t)),
                  specificity := specV,
                  avgPrecision := average_precision_score y p,
                  brier := some brierV }

/-- The per-model loop over the insertion-ordered model map. -/
def evalRows (y : List ℚ) (t : ℚ) : List (String × List ℚ) → Except PyErr (List (String × ModelRow))
  | [] => .ok []
  | nm :: rest =>
    match evalModelRow y nm.2 t with
    | .error e => .error e
    | .ok r =>
      match evalRows y t rest with
      | .error e => .error e
      | .ok rs => .ok ((nm.1, r) :: rs)

/-- pandas `Series.idxmax` / `idxmin` scan (with the default
`skipna=True`): the first position whose non-`nan` value is strictly
better than every earlier non-`nan` value; `nan` entries are skipped. -/
def scanBest (better : ℚ → ℚ → Bool) : List (Option ℚ) → ℕ → Option (ℕ × ℚ) → Option (ℕ × ℚ)
  | [], _, best => best
  | none :: rest, i, best => scanBest better rest (i + 1) best
  | some v :: rest, i, best =>
    match best with
    | none => scanBest better rest (i + 1) (some (i, v))
    | some bv =>
      if better v bv.2 then scanBest better rest (i + 1) (some (i, v))
      else scanBest better rest (i + 1) (some bv)

/-- pandas `idxmax`/`idxmin`: raises `ValueError` when no non-`nan` value
exists (in particular on an empty column). -/
def idxExtreme (better : ℚ → ℚ → Bool) (l : List (Option ℚ)) (msg : String) : Except PyErr ℕ :=
  match scanBest better l 0 none with
  | none => .error (.valueError msg)
  | some bv => .ok bv.1

/-- Source lines 540-550: the best model of one metric row - `idxmin` of
the Brier column, `idxmax` of every other column, then the model name at
that position.  (The out-of-range branch is dead: the scan only returns
positions of list elements.) -/
def bestModelFor (rows : List (String × ModelRow)) (m : Metric) : Except PyErr String :=
  match (match m with
    | .brier => idxExtreme (fun a b => decide (a < b))
        (rows.map (fun r : String × ModelRow => r.2.get m))
        "attempt to get argmin of an empty sequence"
    | _ => idxExtreme (fun a b => decide (b < a))
        (rows.map (fun r : String × ModelRow => r.2.get m))
        "attempt to get argmax of an empty sequence") with
  | .error e => .error e
  | .ok i =>
    match rows.get? i with
    | some r => .ok r.1
    | none => .error (.valueError "index out of range")

/-- The best-model loop over the metric keys in dict order. -/
def bestAssign (rows : List (String × ModelRow)) : List Metric → Except PyErr (List (Metric × String))
  | [] => .ok []
  | m :: ms =>
    match bestModelFor rows m with
    | .error e => .error e
    | .ok s =>
      match bestAssign rows ms with
      | .error e => .error e
      | .ok rest => .ok ((m, s) :: rest)

/-- The transposed output table of `evaluate_model_metrics`: per-model
metric columns (in model-map insertion order) and the per-metric
`"Best Model"` column. -/
structure MetricsTable where
  models : List (String × ModelRow)
  best : List (Metric × String)
deriving DecidableEq, Repr

/-- The `"Best Model"` entry of one metric row. -/
def MetricsTable.bestFor (tb : MetricsTable) (m : Metric) : Option String :=
  tb.best.lookup m

/-- Source lines 473-557: `evaluate_model_metrics(y_test, model_dict,
threshold)`.  The model map is an insertion-ordered association list. -/
def evaluate_model_metrics (y : List ℚ) (models : List (String × List ℚ)) (t : ℚ) :
    Except PyErr MetricsTable :=
  match evalRows y t models with
  | .error e => .error e
  | .ok rows =>
    match bestAssign rows metricOrder with
    | .error e => .error e
    | .ok bs => .ok { models := rows, best := bs }

/-- Python `list.index`: the first position of a value, `ValueError` when
absent (modelled as `none` here; the caller turns it into the error). -/
def pyIndex (x : String) : List String → Option ℕ
  | [] => none
  | c :: cs => if c = x then some 0 else (pyIndex x cs).map (· + 1)

/-- Python `list.insert(i, x)`. -/
def pyInsert (i : ℕ) (x : String) : List String → List String
  | [] => [x]
  | c :: cs =>
    match i with
    | 0 => x :: c :: cs
    | j + 1 => c :: pyInsert j x cs

/-- Source lines 33-76: `move_column_before(df, target_column,
before_column)`, modelled on the DataFrame's column list (the function
only permutes columns; the row data rides along unchanged).  When either
column is missing it prints a message and returns the frame unchanged;
otherwise it removes the first occurrence of the target column and
re-inserts it at the position of the before column - raising Python's
`list.index` `ValueError` when the removal has deleted the only
occurrence of `before_column`, i.e. when the two names coincide. -/
def move_column_before (cols : List String) (target_column before_column : String) :
    Except PyErr (List String) :=
  if ¬ (target_column ∈ cols ∧ before_column ∈ cols) then .ok cols
  else
    match pyIndex before_column (cols.erase target_column) with
    | none => .error (.valueError "x not in list")
    | some i => .ok (pyInsert i target_column (cols.erase target_column))

/-! ### Derived definitions used by the specification statements -/

/-- A label vector is valid when it is drawn from the binary set and both
classes occur. -/
def ValidLabels (y : List ℚ) : Prop :=
  (∀ v ∈ y, v = 0 ∨ v = 1) ∧ (0 : ℚ) ∈ y ∧ (1 : ℚ) ∈ y

/-- A probability vector is valid when all entries lie in the unit
interval. -/
def ValidProbs (p : List ℚ) : Prop := ∀ v ∈ p, 0 ≤ v ∧ v ≤ 1

/-- A valid call: valid labels, a non-empty model map, and length-matched
probability vectors in the unit interval. -/
def ValidInput (y : List ℚ) (models : List (String × List ℚ)) : Prop :=
  ValidLabels y ∧ models ≠ [] ∧
    ∀ nm ∈ models, (nm : String × List ℚ).2.length = y.length ∧ ValidProbs nm.2

/-- Total number of positive samples (paired with their scores). -/
def posTotal (y p : List ℚ) : ℕ := (y.zip p).countP (fun s => decide (s.1 = 1))

/-- Total number of negative samples. -/
def negTotal (y p : List ℚ) : ℕ := (y.zip p).countP (fun s => decide (¬ s.1 = 1))

/-- `np.trapz` on exact rationals (the clean, `nan`-free values that the
`nan`-propagating `trapzO` produces on valid inputs). -/
def trapzQ : List (ℚ × ℚ) → ℚ
  | a :: b :: rest => (b.1 - a.1) * ((a.2 + b.2) / 2) + trapzQ (b :: rest)
  | _ => 0

/-- The recall-decrement-weighted precision sum on exact rationals. -/
def apQ : List ℚ → List ℚ → ℚ
  | r0 :: r1 :: rt, p0 :: pt => (r0 - r1) * p0 + apQ (r1 :: rt) pt
  | _, _ => 0

/-- First element of a rational list, defaulting to 0. -/
def headQ : List ℚ → ℚ
  | [] => 0
  | v :: _ => v

/-- Last element of a rational list, defaulting to 0. -/
def lastQ (l : List ℚ) : ℚ := l.getLastD 0

/-- The exact false-positive-rate array of `roc_curve` on valid inputs. -/
def fprClean (y p : List ℚ) : List ℚ :=
  (0 :: (thresholdsDesc p).map (fpsAt y p)).map (fun c => ((c : ℕ) : ℚ) / ((negTotal y p : ℕ) : ℚ))

/-- The exact true-positive-rate array of `roc_curve` on valid inputs. -/
def tprClean (y p : List ℚ) : List ℚ :=
  (0 :: (thresholdsDesc p).map (tpsAt y p)).map (fun c => ((c : ℕ) : ℚ) / ((posTotal y p : ℕ) : ℚ))

/-- The exact ROC AUC value on valid inputs. -/
def rocAucV (y p : List ℚ) : ℚ := trapzQ ((fprClean y p).zip (tprClean y p))

/-- The exact precision array of `precision_recall_curve` (it is always
`nan`-free). -/
def precsClean (y p : List ℚ) : List ℚ :=
  ((thresholdsDesc p).map (fun v =>
    if tpsAt y p v + fpsAt y p v = 0 then 0
    else ((tpsAt y p v : ℕ) : ℚ) / (((tpsAt y p v : ℕ) : ℚ) + ((fpsAt y p v : ℕ) : ℚ)))).reverse ++ [1]

/-- The exact recall array of `precision_recall_curve` on valid inputs. -/
def recsClean (y p : List ℚ) : List ℚ :=
  (((thresholdsDesc p).map (tpsAt y p)).map
    (fun c => ((c : ℕ) : ℚ) / ((posTotal y p : ℕ) : ℚ))).reverse ++ [0]

/-- The exact PR AUC value on valid inputs. -/
def prAucV (y p : List ℚ) : ℚ := -(trapzQ ((recsClean y p).zip (precsClean y p)))

/-- The exact average-precision value on valid inputs. -/
def apV (y p : List ℚ) : ℚ := apQ (recsClean y p) (precsClean y p)

/-- The exact Brier score (always `nan`-free once the range checks
pass). -/
def brierV (y p : List ℚ) : ℚ :=
  (((y.zip p).map (fun s => (s.2 - s.1) ^ 2)).sum) / ((((y.zip p).length : ℕ)) : ℚ)

/-- The exact specificity value on valid inputs: `tn / (tn + fp)` from the
2x2 confusion matrix with classes `[0, 1]`. -/
def specV (y pred : List ℚ) : ℚ :=
  ((countPair y pred 0 0 : ℕ) : ℚ) /
    (((countPair y pred 0 0 : ℕ) : ℚ) + ((countPair y pred 0 1 : ℕ) : ℚ))

/-- Whether a modelled Python call returned normally (no exception). -/
def exceptOk {ε α : Type} : Except ε α → Bool
  | .ok _ => true
  | .error _ => false

/-- The clean (nan-free) metric row a valid call produces for one model. -/
def cleanRow (y p : List ℚ) (t : ℚ) : ModelRow :=
  { aucRoc := some (rocAucV y p), prAuc := some (prAucV y p),
    precision := some (precision_score y (np_where_gt p t)),
    recallVal := some (recall_score y (np_where_gt p t)),
    specificity := some (specV y (np_where_gt p t)),
    avgPrecision := some (apV y p),
    brier := some (brierV y p) }

/-- The clean table a valid call produces (model part). -/
def cleanRows (y : List ℚ) (models : List (String × List ℚ)) (t : ℚ) :
    List (String × ModelRow) :=
  models.map (fun nm => (nm.1, cleanRow y nm.2 t))

/-! ### Sorting lemmas -/

theorem insertDesc_perm (v : ℚ) (l : List ℚ) : List.Perm (insertDesc v l) (v :: l) := by
  induction l with
  | nil => simp [insertDesc]
  | cons w ws ih =>
    by_cases h : w ≤ v
    · simp [insertDesc, h]
    · simp only [insertDesc, if_neg h]
      exact (ih.cons w).trans (List.Perm.swap v w ws)

theorem sortDesc_perm (l : List ℚ) : List.Perm (sortDesc l) l := by
  induction l with
  | nil => simp [sortDesc]
  | cons v vs ih => exact (insertDesc_perm v (sortDesc vs)).trans (ih.cons v)

theorem mem_sortDesc {a : ℚ} {l : List ℚ} : a ∈ sortDesc l ↔ a ∈ l :=
  (sortDesc_perm l).mem_iff

theorem head?_insertDesc (v : ℚ) (l : List ℚ) :
    (insertDesc v l).head? = some v ∨ (insertDesc v l).head? = l.head? := by
  cases l with
  | nil => simp [insertDesc]
  | cons w ws =>
    by_cases h : w ≤ v
    · simp [insertDesc, h]
    · simp [insertDesc, h]

theorem chain'_insertDesc (v : ℚ) (l : List ℚ) (h : l.Chain' (fun a b => b ≤ a)) :
    (insertDesc v l).Chain' (fun a b => b ≤ a) := by
  induction l with
  | nil => simp [insertDesc]
  | cons w ws ih =>
    by_cases hw : w ≤ v
    · simp only [insertDesc, if_pos hw]
      exact (List.chain'_cons).2 ⟨hw, h⟩
    · simp only [insertDesc, if_neg hw]
      refine (List.chain'_cons').2 ⟨?_, ih (List.chain'_cons'.1 h).2⟩
      intro x hx
      rcases head?_insertDesc v ws with h1 | h1
      · rw [h1] at hx
        cases hx
        exact le_of_lt (lt_of_not_le hw)
      · rw [h1] at hx
        exact (List.chain'_cons'.1 h).1 x hx

theorem chain'_sortDesc (l : List ℚ) : (sortDesc l).Chain' (fun a b => b ≤ a) := by
  induction l with
  | nil => simp [sortDesc]
  | cons v vs ih => exact chain'_insertDesc v (sortDesc vs) ih

theorem insertAsc_perm (v : ℚ) (l : List ℚ) : List.Perm (insertAsc v l) (v :: l) := by
  induction l with
  | nil => simp [insertAsc]
  | cons w ws ih =>
    by_cases h : v ≤ w
    · simp [insertAsc, h]
    · simp only [insertAsc, if_neg h]
      exact (ih.cons w).trans (List.Perm.swap v w ws)

theorem sortAsc_perm (l : List ℚ) : List.Perm (sortAsc l) l := by
  induction l with
  | nil => simp [sortAsc]
  | cons v vs ih => exact (insertAsc_perm v (sortAsc vs)).trans (ih.cons v)

theorem head?_insertAsc (v : ℚ) (l : List ℚ) :
    (insertAsc v l).head? = some v ∨ (insertAsc v l).head? = l.head? := by
  cases l with
  | nil => simp [insertAsc]
  | cons w ws =>
    by_cases h : v ≤ w
    · simp [insertAsc, h]
    · simp [insertAsc, h]

theorem chain'_insertAsc (v : ℚ) (l : List ℚ) (h : l.Chain' (fun a b => a ≤ b)) :
    (insertAsc v l).Chain' (fun a b => a ≤ b) := by
  induction l with
  | nil => simp [insertAsc]
  | cons w ws ih =>
    by_cases hw : v ≤ w
    · simp only [insertAsc, if_pos hw]
      exact (List.chain'_cons).2 ⟨hw, h⟩
    · simp only [insertAsc, if_neg hw]
      refine (List.chain'_cons').2 ⟨?_, ih (List.chain'_cons'.1 h).2⟩
      intro x hx
      rcases head?_insertAsc v ws with h1 | h1
      · rw [h1] at hx
        cases hx
        exact le_of_lt (lt_of_not_le hw)
      · rw [h1] at hx
        exact (List.chain'_cons'.1 h).1 x hx

theorem chain'_sortAsc (l : List ℚ) : (sortAsc l).Chain' (fun a b => a ≤ b) := by
  induction l with
  | nil => simp [sortAsc]
  | cons v vs ih => exact chain'_insertAsc v (sortAsc vs) ih

theorem getLastD_le_of_chainDesc :
    ∀ (l : List ℚ), l.Chain' (fun a b => b ≤ a) → ∀ a ∈ l, l.getLastD 0 ≤ a := by
  intro l
  induction l with
  | nil => simp
  | cons x xs ih =>
    intro h a ha
    cases xs with
    | nil =>
      rcases List.mem_singleton.1 ha with rfl
      simp [List.getLastD]
    | cons y ys =>
      have hxy : y ≤ x := (List.chain'_cons.1 h).1
      have htail := (List.chain'_cons.1 h).2
      have hlast : (x :: y :: ys).getLastD 0 = (y :: ys).getLastD 0 := by
        simp [List.getLastD_cons]
      rcases List.mem_cons.1 ha with rfl | hmem
      · calc (a :: y :: ys).getLastD 0 = (y :: ys).getLastD 0 := by
              simp [List.getLastD_cons]
          _ ≤ y := ih htail y (List.mem_cons_self y ys)
          _ ≤ a := hxy
      · rw [hlast]
        exact ih htail a hmem

theorem mem_thresholdsDesc {p : List ℚ} {a : ℚ} : a ∈ thresholdsDesc p ↔ a ∈ p := by
  simp [thresholdsDesc, mem_sortDesc, List.mem_dedup]

theorem chain'_thresholdsDesc (p : List ℚ) :
    (thresholdsDesc p).Chain' (fun a b => b ≤ a) := chain'_sortDesc _

theorem thresholdsDesc_ne_nil {p : List ℚ} (hp : p ≠ []) : thresholdsDesc p ≠ [] := by
  obtain ⟨x, hx⟩ := List.exists_mem_of_ne_nil p hp
  intro hcon
  have := mem_thresholdsDesc.2 hx
  rw [hcon] at this
  cases this

theorem thresholdsDesc_getLastD_le {p : List ℚ} {x : ℚ} (hx : x ∈ p) :
    (thresholdsDesc p).getLastD 0 ≤ x :=
  getLastD_le_of_chainDesc _ (chain'_thresholdsDesc p) x (mem_thresholdsDesc.2 hx)

/-! ### Counting lemmas -/

theorem tpsAt_anti {y p : List ℚ} {v w : ℚ} (h : v ≤ w) : tpsAt y p w ≤ tpsAt y p v := by
  apply List.countP_mono_left
  intro s _ hs
  simp only [decide_eq_true_eq] at hs ⊢
  exact ⟨hs.1, le_trans h hs.2⟩

theorem fpsAt_anti {y p : List ℚ} {v w : ℚ} (h : v ≤ w) : fpsAt y p w ≤ fpsAt y p v := by
  apply List.countP_mono_left
  intro s _ hs
  simp only [decide_eq_true_eq] at hs ⊢
  exact ⟨hs.1, le_trans h hs.2⟩

theorem tpsAt_le_posTotal {y p : List ℚ} {v : ℚ} : tpsAt y p v ≤ posTotal y p := by
  apply List.countP_mono_left
  intro s _ hs
  simp only [decide_eq_true_eq] at hs ⊢
  exact hs.1

theorem fpsAt_le_negTotal {y p : List ℚ} {v : ℚ} : fpsAt y p v ≤ negTotal y p := by
  apply List.countP_mono_left
  intro s _ hs
  simp only [decide_eq_true_eq] at hs ⊢
  exact hs.1

theorem tpsAt_eq_posTotal {y p : List ℚ} {v : ℚ} (h : ∀ x ∈ p, v ≤ x) :
    tpsAt y p v = posTotal y p := by
  apply List.countP_congr
  intro s hs
  have hsp := (List.of_mem_zip hs).2
  simp only [decide_eq_true_eq]
  exact ⟨fun hc => hc.1, fun hc => ⟨hc, h _ hsp⟩⟩

theorem fpsAt_eq_negTotal {y p : List ℚ} {v : ℚ} (h : ∀ x ∈ p, v ≤ x) :
    fpsAt y p v = negTotal y p := by
  apply List.countP_congr
  intro s hs
  have hsp := (List.of_mem_zip hs).2
  simp only [decide_eq_true_eq]
  exact ⟨fun hc => hc.1, fun hc => ⟨hc, h _ hsp⟩⟩

theorem exists_zip_fst :
    ∀ {y p : List ℚ}, y.length = p.length → ∀ {a : ℚ}, a ∈ y →
      ∃ s ∈ y.zip p, s.1 = a := by
  intro y
  induction y with
  | nil => simp
  | cons b ys ih =>
    intro p hl a ha
    cases p with
    | nil => simp at hl
    | cons c ps =>
      rcases List.mem_cons.1 ha with rfl | ha2
      · exact ⟨(a, c), by simp, rfl⟩
      · obtain ⟨s, hs, h1⟩ := ih (by simpa using hl) ha2
        exact ⟨s, by simp [hs], h1⟩

theorem posTotal_pos {y p : List ℚ} (hl : y.length = p.length) (h1 : (1 : ℚ) ∈ y) :
    0 < posTotal y p := by
  obtain ⟨s, hs, hs1⟩ := exists_zip_fst hl h1
  refine List.countP_pos_iff.2 ⟨s, hs, ?_⟩
  simp [hs1]

theorem negTotal_pos {y p : List ℚ} (hl : y.length = p.length) (h0 : (0 : ℚ) ∈ y) :
    0 < negTotal y p := by
  obtain ⟨s, hs, hs0⟩ := exists_zip_fst hl h0
  refine List.countP_pos_iff.2 ⟨s, hs, ?_⟩
  rw [hs0]
  norm_num

/-- Partition of a conjunction count over a boolean-valued second
condition. -/
theorem countP_and_split (l : List (ℚ × ℚ)) (f g : ℚ × ℚ → Prop)
    [DecidablePred f] [DecidablePred g] :
    l.countP (fun s => decide (f s ∧ g s)) + l.countP (fun s => decide (f s ∧ ¬ g s)) =
      l.countP (fun s => decide (f s)) := by
  induction l with
  | nil => simp
  | cons a l ih =>
    by_cases hf : f a
    · by_cases hg : g a
      · simp only [List.countP_cons]
        simp [hf, hg, ← ih]
        omega
      · simp only [List.countP_cons]
        simp [hf, hg, ← ih]
        omega
    · simp only [List.countP_cons]
      simp [hf, ← ih]

/-! ### Trapezoid and `auc` lemmas -/

theorem trapzO_map_some :
    ∀ (xs ys : List ℚ), trapzO ((xs.map some).zip (ys.map some)) = some (trapzQ (xs.zip ys)) := by
  intro xs
  induction xs with
  | nil => intro ys; simp [trapzO, trapzQ]
  | cons x1 xr ih =>
    intro ys
    cases ys with
    | nil => simp [trapzO, trapzQ]
    | cons y1 yr =>
      cases xr with
      | nil => simp [trapzO, trapzQ]
      | cons x2 xr2 =>
        cases yr with
        | nil => simp [trapzO, trapzQ]
        | cons y2 yr2 =>
          have h := ih (y2 :: yr2)
          simp only [List.map_cons, List.zip, List.zip_cons_cons, List.zipWith_cons_cons, trapzO, trapzQ] at h ⊢
          rw [h]
          simp [oadd, omul, osub, ohalf]

theorem anyDxNeg_eq_false_of_chain :
    ∀ {xs : List ℚ}, xs.Chain' (fun a b => a ≤ b) → anyDxNeg (xs.map some) = false := by
  intro xs
  induction xs with
  | nil => intro _; simp [anyDxNeg]
  | cons x1 xr ih =>
    intro h
    cases xr with
    | nil => simp [anyDxNeg]
    | cons x2 xr2 =>
      have h12 : x1 ≤ x2 := (List.chain'_cons.1 h).1
      have ht := ih (List.chain'_cons.1 h).2
      simp only [List.map_cons, anyDxNeg, oLt] at ht ⊢
      simp only [Bool.or_eq_false_iff]
      constructor
      · simpa using not_lt.2 h12
      · exact ht

theorem allDxLe_of_chainDesc :
    ∀ {xs : List ℚ}, xs.Chain' (fun a b => b ≤ a) → allDxLe (xs.map some) = true := by
  intro xs
  induction xs with
  | nil => intro _; simp [allDxLe]
  | cons x1 xr ih =>
    intro h
    cases xr with
    | nil => simp [allDxLe]
    | cons x2 xr2 =>
      have h12 : x2 ≤ x1 := (List.chain'_cons.1 h).1
      have ht := ih (List.chain'_cons.1 h).2
      simp only [List.map_cons, allDxLe, oLe] at ht ⊢
      simp only [Bool.and_eq_true]
      exact ⟨by simpa using h12, ht⟩

theorem chain_eq_of_not_anyDxNeg :
    ∀ {xs : List ℚ}, anyDxNeg (xs.map some) = false → xs.Chain' (fun a b => b ≤ a) →
      xs.Chain' (fun a b => a = b) := by
  intro xs
  induction xs with
  | nil => intro _ _; simp
  | cons x1 xr ih =>
    intro hb h
    cases xr with
    | nil => simp
    | cons x2 xr2 =>
      simp only [List.map_cons, anyDxNeg, oLt, Bool.or_eq_false_iff] at hb
      have h12 : x2 ≤ x1 := (List.chain'_cons.1 h).1
      have hnlt : ¬ x2 < x1 := by simpa using hb.1
      refine List.chain'_cons.2 ⟨le_antisymm (not_lt.1 hnlt) h12, ?_⟩
      exact ih hb.2 (List.chain'_cons.1 h).2

theorem trapzQ_zero_of_chain_eq :
    ∀ {xs : List ℚ} (ys : List ℚ), xs.Chain' (fun a b => a = b) →
      trapzQ (xs.zip ys) = 0 := by
  intro xs
  induction xs with
  | nil => intro ys _; simp [trapzQ]
  | cons x1 xr ih =>
    intro ys h
    cases ys with
    | nil => simp [trapzQ]
    | cons y1 yr =>
      cases xr with
      | nil => simp [trapzQ]
      | cons x2 xr2 =>
        cases yr with
        | nil => simp [trapzQ]
        | cons y2 yr2 =>
          have h12 : x1 = x2 := (List.chain'_cons.1 h).1
          have ht := ih (y2 :: yr2) (List.chain'_cons.1 h).2
          simp only [List.zip, List.zip_cons_cons, List.zipWith_cons_cons, trapzQ] at ht ⊢
          rw [ht, h12]
          ring

theorem auc_ok_of_chain_mono {xs ys : List ℚ} (hlen : 2 ≤ xs.length)
    (h : xs.Chain' (fun a b => a ≤ b)) :
    auc (xs.map some) (ys.map some) = .ok (some (trapzQ (xs.zip ys))) := by
  unfold auc
  rw [anyDxNeg_eq_false_of_chain h, trapzO_map_some]
  simp [Nat.not_lt.2 hlen]

theorem auc_ok_of_chain_anti {xs ys : List ℚ} (hlen : 2 ≤ xs.length)
    (h : xs.Chain' (fun a b => b ≤ a)) :
    auc (xs.map some) (ys.map some) = .ok (some (-(trapzQ (xs.zip ys)))) := by
  unfold auc
  rw [trapzO_map_some]
  by_cases hneg : anyDxNeg (xs.map some) = true
  · rw [hneg, allDxLe_of_chainDesc h]
    simp [Nat.not_lt.2 hlen, oneg]
  · have hfalse : anyDxNeg (xs.map some) = false := by
      revert hneg
      cases anyDxNeg (xs.map some) <;> simp
    rw [hfalse]
    have hz := trapzQ_zero_of_chain_eq ys (chain_eq_of_not_anyDxNeg hfalse h)
    rw [hz]
    simp [Nat.not_lt.2 hlen]

theorem trapzQ_bounds_mono :
    ∀ (l : List (ℚ × ℚ)), l.Chain' (fun a b => a.1 ≤ b.1) →
      (∀ z ∈ l, 0 ≤ z.2 ∧ z.2 ≤ 1) →
      0 ≤ trapzQ l ∧ trapzQ l ≤ lastQ (l.map Prod.fst) - headQ (l.map Prod.fst) := by
  intro l
  induction l with
  | nil => intro _ _; simp [trapzQ, lastQ, headQ]
  | cons a l2 ih =>
    intro hc hb
    cases l2 with
    | nil => simp [trapzQ, lastQ, headQ, List.getLastD]
    | cons b rest =>
      have hab : a.1 ≤ b.1 := (List.chain'_cons.1 hc).1
      have ihr := ih (List.chain'_cons.1 hc).2 (fun z hz => hb z (List.mem_cons_of_mem a hz))
      have ha2 := hb a (List.mem_cons_self a _)
      have hb2 := hb b (List.mem_cons_self b rest |> List.mem_cons_of_mem a)
      have havg0 : 0 ≤ (a.2 + b.2) / 2 := by linarith [ha2.1, hb2.1]
      have havg1 : (a.2 + b.2) / 2 ≤ 1 := by linarith [ha2.2, hb2.2]
      have hterm0 : 0 ≤ (b.1 - a.1) * ((a.2 + b.2) / 2) :=
        mul_nonneg (by linarith) havg0
      have hterm1 : (b.1 - a.1) * ((a.2 + b.2) / 2) ≤ b.1 - a.1 := by
        calc (b.1 - a.1) * ((a.2 + b.2) / 2) ≤ (b.1 - a.1) * 1 :=
              mul_le_mul_of_nonneg_left havg1 (by linarith)
          _ = b.1 - a.1 := by ring
      have hlast : lastQ ((a :: b :: rest).map Prod.fst) = lastQ ((b :: rest).map Prod.fst) := by
        simp [lastQ, List.getLastD_cons]
      constructor
      · simp only [trapzQ]
        linarith [ihr.1]
      · simp only [trapzQ]
        rw [hlast]
        simp only [headQ, List.map_cons] at ihr ⊢
        linarith [ihr.2]

theorem trapzQ_bounds_anti :
    ∀ (l : List (ℚ × ℚ)), l.Chain' (fun a b => b.1 ≤ a.1) →
      (∀ z ∈ l, 0 ≤ z.2 ∧ z.2 ≤ 1) →
      0 ≤ -(trapzQ l) ∧ -(trapzQ l) ≤ headQ (l.map Prod.fst) - lastQ (l.map Prod.fst) := by
  intro l
  induction l with
  | nil => intro _ _; simp [trapzQ, lastQ, headQ]
  | cons a l2 ih =>
    intro hc hb
    cases l2 with
    | nil => simp [trapzQ, lastQ, headQ, List.getLastD]
    | cons b rest =>
      have hab : b.1 ≤ a.1 := (List.chain'_cons.1 hc).1
      have ihr := ih (List.chain'_cons.1 hc).2 (fun z hz => hb z (List.mem_cons_of_mem a hz))
      have ha2 := hb a (List.mem_cons_self a _)
      have hb2 := hb b (List.mem_cons_self b rest |> List.mem_cons_of_mem a)
      have havg0 : 0 ≤ (a.2 + b.2) / 2 := by linarith [ha2.1, hb2.1]
      have havg1 : (a.2 + b.2) / 2 ≤ 1 := by linarith [ha2.2, hb2.2]
      have hterm0 : 0 ≤ (a.1 - b.1) * ((a.2 + b.2) / 2) :=
        mul_nonneg (by linarith) havg0
      have hterm1 : (a.1 - b.1) * ((a.2 + b.2) / 2) ≤ a.1 - b.1 := by
        calc (a.1 - b.1) * ((a.2 + b.2) / 2) ≤ (a.1 - b.1) * 1 :=
              mul_le_mul_of_nonneg_left havg1 (by linarith)
          _ = a.1 - b.1 := by ring
      have hlast : lastQ ((a :: b :: rest).map Prod.fst) = lastQ ((b :: rest).map Prod.fst) := by
        simp [lastQ, List.getLastD_cons]
      constructor
      · simp only [trapzQ]
        have : -((b.1 - a.1) * ((a.2 + b.2) / 2)) = (a.1 - b.1) * ((a.2 + b.2) / 2) := by ring
        linarith [ihr.1]
      · simp only [trapzQ]
        rw [hlast]
        simp only [headQ, List.map_cons] at ihr ⊢
        linarith [ihr.2]

theorem apQ_bounds :
    ∀ (rs ps : List ℚ), rs.Chain' (fun a b => b ≤ a) →
      (∀ x ∈ ps, 0 ≤ x ∧ x ≤ 1) → rs.length ≤ ps.length + 1 →
      0 ≤ apQ rs ps ∧ apQ rs ps ≤ headQ rs - lastQ rs := by
  intro rs
  induction rs with
  | nil => intro ps _ _ _; simp [apQ, headQ, lastQ]
  | cons r0 rt ih =>
    intro ps hc hp hlen
    cases rt with
    | nil => simp [apQ, headQ, lastQ, List.getLastD]
    | cons r1 rt2 =>
      cases ps with
      | nil => simp at hlen
      | cons p0 pt =>
        have h01 : r1 ≤ r0 := (List.chain'_cons.1 hc).1
        have hp0 := hp p0 (List.mem_cons_self p0 pt)
        have ihr := ih pt (List.chain'_cons.1 hc).2
          (fun x hx => hp x (List.mem_cons_of_mem p0 hx)) (by simpa using Nat.le_of_succ_le_succ hlen)
        have hterm0 : 0 ≤ (r0 - r1) * p0 := mul_nonneg (by linarith) hp0.1
        have hterm1 : (r0 - r1) * p0 ≤ r0 - r1 := by
          calc (r0 - r1) * p0 ≤ (r0 - r1) * 1 := mul_le_mul_of_nonneg_left hp0.2 (by linarith)
            _ = r0 - r1 := by ring
        have hlast : lastQ (r0 :: r1 :: rt2) = lastQ (r1 :: rt2) := by
          simp [lastQ, List.getLastD_cons]
        constructor
        · simp only [apQ]
          linarith [ihr.1]
        · simp only [apQ]
          rw [hlast]
          simp only [headQ] at ihr ⊢
          linarith [ihr.2]

/-! ### `roc_curve` on valid inputs -/

theorem getLastD_map' {α β : Type} (f : α → β) :
    ∀ (l : List α), l ≠ [] → ∀ (a : β) (b : α), (l.map f).getLastD a = f (l.getLastD b) := by
  intro l
  induction l with
  | nil => intro h; exact absurd rfl h
  | cons x xs ih =>
    intro _ a b
    cases xs with
    | nil => simp [List.getLastD]
    | cons y ys =>
      calc ((x :: y :: ys).map f).getLastD a
          = ((y :: ys).map f).getLastD (f x) := by
            rw [List.map_cons, List.getLastD_cons]
        _ = f ((y :: ys).getLastD x) := ih (by simp) (f x) x
        _ = f ((x :: y :: ys).getLastD b) := by
            cases hz : (y :: ys).getLast? with
            | none => simp [List.getLast?_eq_none_iff] at hz
            | some z => simp [List.getLastD_cons, hz]

theorem counts_getLastD_fps {y p : List ℚ} (hp : p ≠ []) :
    ((0 : ℕ) :: (thresholdsDesc p).map (fpsAt y p)).getLastD 0 = negTotal y p := by
  rw [List.getLastD_cons]
  rw [getLastD_map' (fpsAt y p) (thresholdsDesc p) (thresholdsDesc_ne_nil hp) 0 0]
  exact fpsAt_eq_negTotal (fun x hx => thresholdsDesc_getLastD_le hx)

theorem counts_getLastD_tps {y p : List ℚ} (hp : p ≠ []) :
    ((0 : ℕ) :: (thresholdsDesc p).map (tpsAt y p)).getLastD 0 = posTotal y p := by
  rw [List.getLastD_cons]
  rw [getLastD_map' (tpsAt y p) (thresholdsDesc p) (thresholdsDesc_ne_nil hp) 0 0]
  exact tpsAt_eq_posTotal (fun x hx => thresholdsDesc_getLastD_le hx)

theorem map_qdiv0_eq {N : ℕ} (hN : N ≠ 0) (l : List ℕ) :
    l.map (fun c => qdiv0 ((c : ℕ) : ℚ) ((N : ℕ) : ℚ)) =
      (l.map (fun c => ((c : ℕ) : ℚ) / ((N : ℕ) : ℚ))).map some := by
  rw [List.map_map]
  apply List.map_congr_left
  intro c _
  simp only [Function.comp_apply, qdiv0]
  rw [if_neg (by exact_mod_cast hN)]

theorem roc_curve_valid {y p : List ℚ} (hlen : y.length = p.length)
    (hbin : ∀ v ∈ y, v = 0 ∨ v = 1) (h0 : (0 : ℚ) ∈ y) (h1 : (1 : ℚ) ∈ y) :
    roc_curve y p = .ok ((fprClean y p).map some, (tprClean y p).map some) := by
  have hy : y ≠ [] := List.ne_nil_of_mem h0
  have hp : p ≠ [] := by
    intro h
    rw [h] at hlen
    exact hy (List.eq_nil_of_length_eq_zero (by simpa using hlen))
  have hng := negTotal_pos hlen h0
  have hps := posTotal_pos hlen h1
  unfold roc_curve
  rw [if_neg (by simp [hlen]), if_neg (by
    simp only [not_or, List.all_eq_true, decide_eq_true_eq, not_not]
    exact ⟨hy, hbin⟩)]
  rw [counts_getLastD_fps hp, counts_getLastD_tps hp]
  rw [map_qdiv0_eq (Nat.pos_iff_ne_zero.1 hng), map_qdiv0_eq (Nat.pos_iff_ne_zero.1 hps)]
  rfl

theorem chain_fprClean (y p : List ℚ) : (fprClean y p).Chain' (fun a b => a ≤ b) := by
  have hts := chain'_thresholdsDesc p
  have hmap : ((thresholdsDesc p).map (fpsAt y p)).Chain' (fun a b : ℕ => a ≤ b) :=
    (List.chain'_map _).2 (hts.imp (fun a b hab => fpsAt_anti hab))
  have hcons : ((0 : ℕ) :: (thresholdsDesc p).map (fpsAt y p)).Chain' (fun a b : ℕ => a ≤ b) :=
    (List.chain'_cons').2 ⟨fun h _ => Nat.zero_le h, hmap⟩
  exact (List.chain'_map _).2 (hcons.imp (fun a b hab => by
    by_cases hz : ((negTotal y p : ℕ) : ℚ) = 0
    · simp [hz]
    · have hpos : (0 : ℚ) < ((negTotal y p : ℕ) : ℚ) := by
        rcases lt_or_eq_of_le (by positivity : (0:ℚ) ≤ ((negTotal y p : ℕ) : ℚ)) with h | h
        · exact h
        · exact absurd h.symm hz
      exact (div_le_div_iff_of_pos_right hpos).2 (by exact_mod_cast hab)))

theorem chain_tprClean (y p : List ℚ) : (tprClean y p).Chain' (fun a b => a ≤ b) := by
  have hts := chain'_thresholdsDesc p
  have hmap : ((thresholdsDesc p).map (tpsAt y p)).Chain' (fun a b : ℕ => a ≤ b) :=
    (List.chain'_map _).2 (hts.imp (fun a b hab => tpsAt_anti hab))
  have hcons : ((0 : ℕ) :: (thresholdsDesc p).map (tpsAt y p)).Chain' (fun a b : ℕ => a ≤ b) :=
    (List.chain'_cons').2 ⟨fun h _ => Nat.zero_le h, hmap⟩
  exact (List.chain'_map _).2 (hcons.imp (fun a b hab => by
    by_cases hz : ((posTotal y p : ℕ) : ℚ) = 0
    · simp [hz]
    · have hpos : (0 : ℚ) < ((posTotal y p : ℕ) : ℚ) := by
        rcases lt_or_eq_of_le (by positivity : (0:ℚ) ≤ ((posTotal y p : ℕ) : ℚ)) with h | h
        · exact h
        · exact absurd h.symm hz
      exact (div_le_div_iff_of_pos_right hpos).2 (by exact_mod_cast hab)))

theorem mem_fprClean_bounds {y p : List ℚ} (hng : 0 < negTotal y p) :
    ∀ q ∈ fprClean y p, 0 ≤ q ∧ q ≤ 1 := by
  intro q hq
  obtain ⟨c, hc, rfl⟩ := List.mem_map.1 hq
  have hcle : c ≤ negTotal y p := by
    rcases List.mem_cons.1 hc with rfl | hc2
    · exact Nat.zero_le _
    · obtain ⟨v, _, rfl⟩ := List.mem_map.1 hc2
      exact fpsAt_le_negTotal
  have hpos : (0 : ℚ) < ((negTotal y p : ℕ) : ℚ) := by exact_mod_cast hng
  constructor
  · positivity
  · rw [div_le_one hpos]
    exact_mod_cast hcle

theorem mem_tprClean_bounds {y p : List ℚ} (hps : 0 < posTotal y p) :
    ∀ q ∈ tprClean y p, 0 ≤ q ∧ q ≤ 1 := by
  intro q hq
  obtain ⟨c, hc, rfl⟩ := List.mem_map.1 hq
  have hcle : c ≤ posTotal y p := by
    rcases List.mem_cons.1 hc with rfl | hc2
    · exact Nat.zero_le _
    · obtain ⟨v, _, rfl⟩ := List.mem_map.1 hc2
      exact tpsAt_le_posTotal
  have hpos : (0 : ℚ) < ((posTotal y p : ℕ) : ℚ) := by exact_mod_cast hps
  constructor
  · positivity
  · rw [div_le_one hpos]
    exact_mod_cast hcle

theorem headQ_fprClean (y p : List ℚ) : headQ (fprClean y p) = 0 := by
  simp [fprClean, headQ]

theorem lastQ_fprClean {y p : List ℚ} (hp : p ≠ []) (hng : 0 < negTotal y p) :
    lastQ (fprClean y p) = 1 := by
  unfold lastQ fprClean
  rw [getLastD_map' _ _ (by simp) 0 0, counts_getLastD_fps hp]
  exact div_self (by exact_mod_cast Nat.pos_iff_ne_zero.1 hng)

theorem fprClean_length (y p : List ℚ) :
    (fprClean y p).length = (thresholdsDesc p).length + 1 := by
  simp [fprClean]

theorem tprClean_length (y p : List ℚ) :
    (tprClean y p).length = (thresholdsDesc p).length + 1 := by
  simp [tprClean]

theorem rocAucV_bounds {y p : List ℚ} (hlen : y.length = p.length)
    (h0 : (0 : ℚ) ∈ y) (h1 : (1 : ℚ) ∈ y) (hp : p ≠ []) :
    0 ≤ rocAucV y p ∧ rocAucV y p ≤ 1 := by
  have hng := negTotal_pos hlen h0
  have hps := posTotal_pos hlen h1
  have hlen2 : (fprClean y p).length ≤ (tprClean y p).length := by
    rw [fprClean_length, tprClean_length]
  have hmapfst : ((fprClean y p).zip (tprClean y p)).map Prod.fst = fprClean y p :=
    List.map_fst_zip _ _ hlen2
  have hchain : ((fprClean y p).zip (tprClean y p)).Chain' (fun a b => a.1 ≤ b.1) := by
    have := (List.chain'_map (Prod.fst : ℚ × ℚ → ℚ)).1
      (by rw [hmapfst]; exact chain_fprClean y p)
    exact this
  have hyb : ∀ z ∈ (fprClean y p).zip (tprClean y p), 0 ≤ z.2 ∧ z.2 ≤ 1 := by
    intro z hz
    exact mem_tprClean_bounds hps z.2 (List.of_mem_zip hz).2
  have hb := trapzQ_bounds_mono _ hchain hyb
  rw [hmapfst] at hb
  unfold rocAucV
  constructor
  · exact hb.1
  · refine le_trans hb.2 ?_
    rw [headQ_fprClean, lastQ_fprClean hp hng]
    norm_num

theorem auc_roc_ok {y p : List ℚ} (hlen : y.length = p.length)
    (h0 : (0 : ℚ) ∈ y) (h1 : (1 : ℚ) ∈ y) (hp : p ≠ []) :
    auc ((fprClean y p).map some) ((tprClean y p).map some) = .ok (some (rocAucV y p)) := by
  have hlen2 : 2 ≤ (fprClean y p).length := by
    rw [fprClean_length]
    have : 0 < (thresholdsDesc p).length :=
      List.length_pos.2 (thresholdsDesc_ne_nil hp)
    omega
  exact auc_ok_of_chain_mono hlen2 (chain_fprClean y p)

/-! ### `precision_recall_curve` on valid inputs -/

theorem headQ_mem : ∀ {l : List ℚ}, l ≠ [] → headQ l ∈ l := by
  intro l h
  cases l with
  | nil => exact absurd rfl h
  | cons x xs => exact List.mem_cons_self x xs

theorem recsClean_length (y p : List ℚ) :
    (recsClean y p).length = (thresholdsDesc p).length + 1 := by
  simp [recsClean]

theorem precsClean_length (y p : List ℚ) :
    (precsClean y p).length = (thresholdsDesc p).length + 1 := by
  simp [precsClean]

theorem recsClean_ne_nil (y p : List ℚ) : recsClean y p ≠ [] := by
  intro h
  have := recsClean_length y p
  rw [h] at this
  simp at this

theorem precsClean_ne_nil (y p : List ℚ) : precsClean y p ≠ [] := by
  intro h
  have := precsClean_length y p
  rw [h] at this
  simp at this

theorem mem_recsClean_bounds {y p : List ℚ} (hps : 0 < posTotal y p) :
    ∀ q ∈ recsClean y p, 0 ≤ q ∧ q ≤ 1 := by
  intro q hq
  rcases List.mem_append.1 hq with hq1 | hq1
  · rw [List.mem_reverse] at hq1
    obtain ⟨c, hc, rfl⟩ := List.mem_map.1 hq1
    obtain ⟨v, _, rfl⟩ := List.mem_map.1 hc
    have hpos : (0 : ℚ) < ((posTotal y p : ℕ) : ℚ) := by exact_mod_cast hps
    constructor
    · positivity
    · rw [div_le_one hpos]
      exact_mod_cast tpsAt_le_posTotal
  · rcases List.mem_singleton.1 hq1 with rfl
    norm_num

theorem mem_precsClean_bounds (y p : List ℚ) :
    ∀ q ∈ precsClean y p, 0 ≤ q ∧ q ≤ 1 := by
  intro q hq
  rcases List.mem_append.1 hq with hq1 | hq1
  · rw [List.mem_reverse] at hq1
    obtain ⟨v, _, rfl⟩ := List.mem_map.1 hq1
    by_cases hz : tpsAt y p v + fpsAt y p v = 0
    · rw [if_pos hz]
      norm_num
    · rw [if_neg hz]
      have hd : (0 : ℚ) < ((tpsAt y p v : ℕ) : ℚ) + ((fpsAt y p v : ℕ) : ℚ) := by
        have : 0 < tpsAt y p v + fpsAt y p v := Nat.pos_of_ne_zero hz
        exact_mod_cast this
      constructor
      · positivity
      · rw [div_le_one hd]
        have : tpsAt y p v ≤ tpsAt y p v + fpsAt y p v := Nat.le_add_right _ _
        exact_mod_cast this
  · rcases List.mem_singleton.1 hq1 with rfl
    norm_num

theorem chain_recsClean {y p : List ℚ} : (recsClean y p).Chain' (fun a b => b ≤ a) := by
  have hts := chain'_thresholdsDesc p
  have hmap : ((thresholdsDesc p).map (tpsAt y p)).Chain' (fun a b : ℕ => a ≤ b) :=
    (List.chain'_map _).2 (hts.imp (fun a b hab => tpsAt_anti hab))
  have hdiv : (((thresholdsDesc p).map (tpsAt y p)).map
      (fun c : ℕ => ((c : ℕ) : ℚ) / ((posTotal y p : ℕ) : ℚ))).Chain' (fun a b => a ≤ b) := by
    refine (List.chain'_map _).2 (hmap.imp (fun a b hab => ?_))
    by_cases hz : ((posTotal y p : ℕ) : ℚ) = 0
    · simp [hz]
    · have hpos : (0 : ℚ) < ((posTotal y p : ℕ) : ℚ) := by
        rcases lt_or_eq_of_le (by positivity : (0:ℚ) ≤ ((posTotal y p : ℕ) : ℚ)) with h | h
        · exact h
        · exact absurd h.symm hz
      exact (div_le_div_iff_of_pos_right hpos).2 (by exact_mod_cast hab)
  have hrev : ((((thresholdsDesc p).map (tpsAt y p)).map
      (fun c : ℕ => ((c : ℕ) : ℚ) / ((posTotal y p : ℕ) : ℚ))).reverse).Chain'
      (fun a b => b ≤ a) := by
    rw [List.chain'_reverse]
    exact hdiv.imp (fun a b hab => hab)
  refine List.chain'_append.2 ⟨hrev, by simp, ?_⟩
  intro x hx z hz
  rcases List.mem_singleton.1 (by simpa using hz) with rfl
  have hxm : x ∈ (((thresholdsDesc p).map (tpsAt y p)).map
      (fun c : ℕ => ((c : ℕ) : ℚ) / ((posTotal y p : ℕ) : ℚ))).reverse :=
    List.mem_of_getLast?_eq_some hx
  rw [List.mem_reverse] at hxm
  obtain ⟨c, _, rfl⟩ := List.mem_map.1 hxm
  positivity

theorem lastQ_recsClean (y p : List ℚ) : lastQ (recsClean y p) = 0 := by
  unfold lastQ recsClean
  rw [List.getLastD_concat]

theorem pr_curve_snd_valid {y p : List ℚ} (hlen : y.length = p.length)
    (h1 : (1 : ℚ) ∈ y) (hp : p ≠ []) :
    (precision_recall_curve y p).2 = (recsClean y p).map some := by
  have hps := posTotal_pos hlen h1
  have htd : ((thresholdsDesc p).map (tpsAt y p)).getLastD 0 = posTotal y p := by
    rw [getLastD_map' (tpsAt y p) (thresholdsDesc p) (thresholdsDesc_ne_nil hp) 0 0]
    exact tpsAt_eq_posTotal (fun x hx => thresholdsDesc_getLastD_le hx)
  unfold precision_recall_curve recsClean
  rw [htd, map_qdiv0_eq (Nat.pos_iff_ne_zero.1 hps)]
  rw [List.map_append, List.map_reverse]
  rfl

theorem auc_pr_ok {y p : List ℚ} (hp : p ≠ []) :
    auc ((recsClean y p).map some) ((precsClean y p).map some) = .ok (some (prAucV y p)) := by
  have hlen2 : 2 ≤ (recsClean y p).length := by
    rw [recsClean_length]
    have : 0 < (thresholdsDesc p).length :=
      List.length_pos.2 (thresholdsDesc_ne_nil hp)
    omega
  exact auc_ok_of_chain_anti hlen2 chain_recsClean

theorem prAucV_bounds {y p : List ℚ} (hlen : y.length = p.length)
    (h1 : (1 : ℚ) ∈ y) (hp : p ≠ []) :
    0 ≤ prAucV y p ∧ prAucV y p ≤ 1 := by
  have hps := posTotal_pos hlen h1
  have hlen2 : (recsClean y p).length ≤ (precsClean y p).length := by
    rw [recsClean_length, precsClean_length]
  have hmapfst : ((recsClean y p).zip (precsClean y p)).map Prod.fst = recsClean y p :=
    List.map_fst_zip _ _ hlen2
  have hchain : ((recsClean y p).zip (precsClean y p)).Chain' (fun a b => b.1 ≤ a.1) := by
    have h1c := (List.chain'_map (Prod.fst : ℚ × ℚ → ℚ)).1
      (by rw [hmapfst]; exact (chain_recsClean : (recsClean y p).Chain' _))
    exact h1c
  have hyb : ∀ z ∈ (recsClean y p).zip (precsClean y p), 0 ≤ z.2 ∧ z.2 ≤ 1 := by
    intro z hz
    exact mem_precsClean_bounds y p z.2 (List.of_mem_zip hz).2
  have hb := trapzQ_bounds_anti _ hchain hyb
  rw [hmapfst] at hb
  unfold prAucV
  refine ⟨hb.1, le_trans hb.2 ?_⟩
  rw [lastQ_recsClean]
  have hh : headQ (recsClean y p) ≤ 1 :=
    (mem_recsClean_bounds hps _ (headQ_mem (recsClean_ne_nil y p))).2
  linarith

theorem apDiffs_map_some :
    ∀ (rs ps : List ℚ), apDiffs (rs.map some) ps = some (apQ rs ps) := by
  intro rs
  induction rs with
  | nil => intro ps; simp [apDiffs, apQ]
  | cons r0 rt ih =>
    intro ps
    cases rt with
    | nil => cases ps <;> simp [apDiffs, apQ]
    | cons r1 rt2 =>
      cases ps with
      | nil => simp [apDiffs, apQ]
      | cons p0 pt =>
        have h := ih pt
        simp only [List.map_cons, apDiffs, apQ] at h ⊢
        rw [h]
        simp [oadd, omul, osub]

theorem average_precision_valid {y p : List ℚ} (hlen : y.length = p.length)
    (h1 : (1 : ℚ) ∈ y) (hp : p ≠ []) :
    average_precision_score y p = some (apV y p) := by
  unfold average_precision_score apV
  rw [pr_curve_snd_valid hlen h1 hp, apDiffs_map_some]
  rfl

theorem apV_bounds {y p : List ℚ} (hlen : y.length = p.length)
    (h1 : (1 : ℚ) ∈ y) (hp : p ≠ []) :
    0 ≤ apV y p ∧ apV y p ≤ 1 := by
  have hps := posTotal_pos hlen h1
  have hb := apQ_bounds (recsClean y p) (precsClean y p) chain_recsClean
    (mem_precsClean_bounds y p)
    (by rw [recsClean_length, precsClean_length]; omega)
  unfold apV
  refine ⟨hb.1, le_trans hb.2 ?_⟩
  rw [lastQ_recsClean]
  have hh : headQ (recsClean y p) ≤ 1 :=
    (mem_recsClean_bounds hps _ (headQ_mem (recsClean_ne_nil y p))).2
  linarith

/-! ### Confusion matrix, scores and Brier on valid inputs -/

theorem np_where_gt_mem {p : List ℚ} {t : ℚ} : ∀ v ∈ np_where_gt p t, v = 0 ∨ v = 1 := by
  intro v hv
  obtain ⟨w, _, rfl⟩ := List.mem_map.1 hv
  by_cases h : t < w
  · simp [h]
  · simp [h]

theorem np_where_gt_length (p : List ℚ) (t : ℚ) : (np_where_gt p t).length = p.length := by
  simp [np_where_gt]

theorem sorted_nodup_binary_eq :
    ∀ (l : List ℚ), l.Chain' (fun a b => a ≤ b) → l.Nodup → (∀ x ∈ l, x = 0 ∨ x = 1) →
      (0 : ℚ) ∈ l → (1 : ℚ) ∈ l → l = [0, 1] := by
  intro l hc hn hb h0 h1
  match l with
  | [] => cases h0
  | [x] =>
    rcases List.mem_singleton.1 h0 with rfl
    rcases List.mem_singleton.1 h1 with h
    norm_num at h
  | x :: y :: rest =>
    have hx := hb x (by simp)
    have hy := hb y (by simp)
    have hxy : x ≠ y := by
      intro h
      rw [List.nodup_cons] at hn
      exact hn.1 (h ▸ List.mem_cons_self y rest)
    have hrest : rest = [] := by
      cases rest with
      | nil => rfl
      | cons z zs =>
        exfalso
        have hz := hb z (by simp)
        rw [List.nodup_cons, List.nodup_cons] at hn
        rcases hx with rfl | rfl <;> rcases hy with rfl | rfl <;> rcases hz with rfl | rfl
        · exact hxy rfl
        · exact hxy rfl
        · exact hn.1 (by simp)
        · exact hn.2.1 (by simp)
        · exact hn.2.1 (by simp)
        · exact hn.1 (by simp)
        · exact hxy rfl
        · exact hxy rfl
    subst hrest
    have hchain : x ≤ y := (List.chain'_cons.1 hc).1
    rcases hx with rfl | rfl <;> rcases hy with rfl | rfl
    · exact absurd rfl hxy
    · rfl
    · exfalso
      norm_num at hchain
    · exact absurd rfl hxy

theorem cmClasses_valid {y pred : List ℚ} (hby : ∀ v ∈ y, v = 0 ∨ v = 1)
    (hbp : ∀ v ∈ pred, v = 0 ∨ v = 1) (h0 : (0 : ℚ) ∈ y) (h1 : (1 : ℚ) ∈ y) :
    cmClasses y pred = [0, 1] := by
  have hperm := sortAsc_perm ((y ++ pred).dedup)
  apply sorted_nodup_binary_eq
  · exact chain'_sortAsc _
  · exact (hperm.nodup_iff).2 (List.nodup_dedup _)
  · intro x hx
    have : x ∈ (y ++ pred).dedup := hperm.mem_iff.1 hx
    rcases List.mem_append.1 (List.mem_dedup.1 this) with h | h
    · exact hby x h
    · exact hbp x h
  · exact hperm.mem_iff.2 (List.mem_dedup.2 (List.mem_append.2 (Or.inl h0)))
  · exact hperm.mem_iff.2 (List.mem_dedup.2 (List.mem_append.2 (Or.inl h1)))

theorem countPair_partition {y pred : List ℚ} (hbp : ∀ v ∈ pred, v = 0 ∨ v = 1) :
    countPair y pred 0 0 + countPair y pred 0 1 =
      (y.zip pred).countP (fun s => decide (s.1 = 0)) := by
  have h1 : countPair y pred 0 1 =
      (y.zip pred).countP (fun s => decide (s.1 = 0 ∧ ¬ s.2 = 0)) := by
    apply List.countP_congr
    intro s hs
    have hsp := hbp s.2 (List.of_mem_zip hs).2
    simp only [decide_eq_true_eq]
    constructor
    · intro hc
      exact ⟨hc.1, by rw [hc.2]; norm_num⟩
    · intro hc
      rcases hsp with h | h
      · exact absurd h hc.2
      · exact ⟨hc.1, h⟩
  rw [h1]
  exact countP_and_split (y.zip pred) (fun s => s.1 = 0) (fun s => s.2 = 0)

theorem zeroCount_pos {y pred : List ℚ} (hlen : y.length = pred.length)
    (h0 : (0 : ℚ) ∈ y) : 0 < (y.zip pred).countP (fun s => decide (s.1 = 0)) := by
  obtain ⟨s, hs, hs0⟩ := exists_zip_fst hlen h0
  refine List.countP_pos_iff.2 ⟨s, hs, ?_⟩
  simp [hs0]

theorem specificity_calc_valid {y pred : List ℚ} (hby : ∀ v ∈ y, v = 0 ∨ v = 1)
    (hbp : ∀ v ∈ pred, v = 0 ∨ v = 1) (h0 : (0 : ℚ) ∈ y) (h1 : (1 : ℚ) ∈ y)
    (hlen : y.length = pred.length) :
    specificity_calc y pred = .ok (some (specV y pred)) ∧
      countPair y pred 0 0 + countPair y pred 0 1 ≠ 0 := by
  have hpos : 0 < countPair y pred 0 0 + countPair y pred 0 1 := by
    rw [countPair_partition hbp]
    exact zeroCount_pos hlen h0
  constructor
  · unfold specificity_calc
    rw [cmClasses_valid hby hbp h0 h1]
    have hden : ((countPair y pred 0 0 : ℕ) : ℚ) + ((countPair y pred 0 1 : ℕ) : ℚ) ≠ 0 := by
      have : ((countPair y pred 0 0 + countPair y pred 0 1 : ℕ) : ℚ) ≠ 0 := by
        exact_mod_cast Nat.pos_iff_ne_zero.1 hpos
      push_cast at this
      exact this
    simp only [qdiv0, if_neg hden]
    rfl
  · exact Nat.pos_iff_ne_zero.1 hpos

theorem precision_score_bounds (y pred : List ℚ) :
    0 ≤ precision_score y pred ∧ precision_score y pred ≤ 1 := by
  unfold precision_score
  by_cases hz : tpCount y pred + fpCount y pred = 0
  · rw [if_pos hz]
    norm_num
  · rw [if_neg hz]
    have hd : (0 : ℚ) < ((tpCount y pred : ℕ) : ℚ) + ((fpCount y pred : ℕ) : ℚ) := by
      have : 0 < tpCount y pred + fpCount y pred := Nat.pos_of_ne_zero hz
      exact_mod_cast this
    constructor
    · positivity
    · rw [div_le_one hd]
      have : tpCount y pred ≤ tpCount y pred + fpCount y pred := Nat.le_add_right _ _
      exact_mod_cast this

theorem recall_score_bounds (y pred : List ℚ) :
    0 ≤ recall_score y pred ∧ recall_score y pred ≤ 1 := by
  unfold recall_score
  by_cases hz : tpCount y pred + fnCount y pred = 0
  · rw [if_pos hz]
    norm_num
  · rw [if_neg hz]
    have hd : (0 : ℚ) < ((tpCount y pred : ℕ) : ℚ) + ((fnCount y pred : ℕ) : ℚ) := by
      have : 0 < tpCount y pred + fnCount y pred := Nat.pos_of_ne_zero hz
      exact_mod_cast this
    constructor
    · positivity
    · rw [div_le_one hd]
      have : tpCount y pred ≤ tpCount y pred + fnCount y pred := Nat.le_add_right _ _
      exact_mod_cast this

theorem specV_bounds (y pred : List ℚ) : 0 ≤ specV y pred ∧ specV y pred ≤ 1 := by
  unfold specV
  by_cases hz : countPair y pred 0 0 + countPair y pred 0 1 = 0
  · have h00 : countPair y pred 0 0 = 0 := by omega
    have h01 : countPair y pred 0 1 = 0 := by omega
    rw [h00, h01]
    norm_num
  · have hd : (0 : ℚ) < ((countPair y pred 0 0 : ℕ) : ℚ) + ((countPair y pred 0 1 : ℕ) : ℚ) := by
      have : 0 < countPair y pred 0 0 + countPair y pred 0 1 := Nat.pos_of_ne_zero hz
      exact_mod_cast this
    constructor
    · positivity
    · rw [div_le_one hd]
      have : countPair y pred 0 0 ≤ countPair y pred 0 0 + countPair y pred 0 1 :=
        Nat.le_add_right _ _
      exact_mod_cast this

theorem brier_score_loss_valid {y p : List ℚ} (hvp : ValidProbs p) :
    brier_score_loss y p = .ok (brierV y p) := by
  unfold brier_score_loss
  rw [if_neg, if_neg]
  · rfl
  · intro hcon
    obtain ⟨v, hv, hlt⟩ := List.any_eq_true.1 hcon
    exact absurd (of_decide_eq_true hlt) (not_lt.2 (hvp v hv).2)
  · intro hcon
    obtain ⟨v, hv, hlt⟩ := List.any_eq_true.1 hcon
    exact absurd (of_decide_eq_true hlt) (not_lt.2 (hvp v hv).1)

theorem brierV_bounds {y p : List ℚ} (hby : ∀ v ∈ y, v = 0 ∨ v = 1)
    (hvp : ValidProbs p) (hlen : p.length = y.length) (hy : y ≠ []) :
    0 ≤ brierV y p ∧ brierV y p ≤ 1 := by
  have hzlen : (y.zip p).length = y.length := by
    rw [List.length_zip, hlen, Nat.min_self]
  have hNpos : 0 < (y.zip p).length := by
    rw [hzlen]
    exact List.length_pos.2 hy
  have hN : (0 : ℚ) < (((y.zip p).length : ℕ) : ℚ) := by exact_mod_cast hNpos
  have hterm : ∀ x ∈ (y.zip p).map (fun s => (s.2 - s.1) ^ 2), 0 ≤ x ∧ x ≤ 1 := by
    intro x hx
    obtain ⟨s, hs, rfl⟩ := List.mem_map.1 hx
    have hsy := hby s.1 (List.of_mem_zip hs).1
    have hsp := hvp s.2 (List.of_mem_zip hs).2
    constructor
    · positivity
    · rcases hsy with h | h <;> rw [h] <;> nlinarith [hsp.1, hsp.2]
  have hsum0 : 0 ≤ ((y.zip p).map (fun s => (s.2 - s.1) ^ 2)).sum :=
    List.sum_nonneg (fun x hx => (hterm x hx).1)
  have hsum1 : ((y.zip p).map (fun s => (s.2 - s.1) ^ 2)).sum ≤
      (((y.zip p).length : ℕ) : ℚ) := by
    have := List.sum_le_card_nsmul ((y.zip p).map (fun s => (s.2 - s.1) ^ 2)) 1
      (fun x hx => (hterm x hx).2)
    simpa [nsmul_eq_mul] using this
  unfold brierV
  constructor
  · positivity
  · rw [div_le_one hN]
    exact hsum1

/-! ### The per-model row on valid inputs -/

theorem pr_curve_fst (y p : List ℚ) : (precision_recall_curve y p).1 = precsClean y p := rfl

/-- On a valid call, the per-model loop body raises nothing and produces
the clean (nan-free) metric values. -/
theorem evalModelRow_valid {y p : List ℚ} {t : ℚ} (hby : ∀ v ∈ y, v = 0 ∨ v = 1)
    (h0 : (0 : ℚ) ∈ y) (h1 : (1 : ℚ) ∈ y) (hlen : p.length = y.length)
    (hvp : ValidProbs p) :
    evalModelRow y p t = .ok
      { aucRoc := some (rocAucV y p), prAuc := some (prAucV y p),
        precision := some (precision_score y (np_where_gt p t)),
        recallVal := some (recall_score y (np_where_gt p t)),
        specificity := some (specV y (np_where_gt p t)),
        avgPrecision := some (apV y p),
        brier := some (brierV y p) } := by
  have hy : y ≠ [] := List.ne_nil_of_mem h0
  have hp : p ≠ [] := by
    intro h
    rw [h] at hlen
    exact hy (List.eq_nil_of_length_eq_zero hlen.symm)
  have hroc := roc_curve_valid hlen.symm hby h0 h1
  have haucroc := auc_roc_ok hlen.symm h0 h1 hp
  have hpr2 := pr_curve_snd_valid hlen.symm h1 hp
  have haucpr := @auc_pr_ok y p hp
  have hspec := (specificity_calc_valid hby (@np_where_gt_mem p t) h0 h1
    (by rw [np_where_gt_length, hlen])).1
  have hbrier := @brier_score_loss_valid y p hvp
  have hap := average_precision_valid hlen.symm h1 hp
  unfold evalModelRow
  rw [hroc]
  simp only []
  rw [haucroc]
  simp only []
  rw [hpr2, pr_curve_fst, haucpr]
  simp only []
  rw [hspec]
  simp only []
  rw [hbrier]
  simp only []
  rw [hap]

/-! ### The full table on valid inputs -/

theorem evalModelRow_valid_clean {y p : List ℚ} {t : ℚ} (hby : ∀ v ∈ y, v = 0 ∨ v = 1)
    (h0 : (0 : ℚ) ∈ y) (h1 : (1 : ℚ) ∈ y) (hlen : p.length = y.length)
    (hvp : ValidProbs p) :
    evalModelRow y p t = .ok (cleanRow y p t) :=
  evalModelRow_valid hby h0 h1 hlen hvp

theorem cleanRow_get_bounds {y p : List ℚ} {t : ℚ} (hby : ∀ v ∈ y, v = 0 ∨ v = 1)
    (h0 : (0 : ℚ) ∈ y) (h1 : (1 : ℚ) ∈ y) (hlen : p.length = y.length)
    (hvp : ValidProbs p) :
    ∀ m : Metric, ∃ q : ℚ, (cleanRow y p t).get m = some q ∧ 0 ≤ q ∧ q ≤ 1 := by
  have hy : y ≠ [] := List.ne_nil_of_mem h0
  have hp : p ≠ [] := by
    intro h
    rw [h] at hlen
    exact hy (List.eq_nil_of_length_eq_zero hlen.symm)
  intro m
  cases m with
  | aucRoc =>
    exact ⟨rocAucV y p, rfl, (rocAucV_bounds hlen.symm h0 h1 hp).1,
      (rocAucV_bounds hlen.symm h0 h1 hp).2⟩
  | prAuc =>
    exact ⟨prAucV y p, rfl, (prAucV_bounds hlen.symm h1 hp).1,
      (prAucV_bounds hlen.symm h1 hp).2⟩
  | precision =>
    exact ⟨precision_score y (np_where_gt p t), rfl,
      (precision_score_bounds y _).1, (precision_score_bounds y _).2⟩
  | recallVal =>
    exact ⟨recall_score y (np_where_gt p t), rfl,
      (recall_score_bounds y _).1, (recall_score_bounds y _).2⟩
  | specificity =>
    exact ⟨specV y (np_where_gt p t), rfl,
      (specV_bounds y _).1, (specV_bounds y _).2⟩
  | avgPrecision =>
    exact ⟨apV y p, rfl, (apV_bounds hlen.symm h1 hp).1, (apV_bounds hlen.symm h1 hp).2⟩
  | brier =>
    exact ⟨brierV y p, rfl, (brierV_bounds hby hvp hlen hy).1,
      (brierV_bounds hby hvp hlen hy).2⟩

theorem evalRows_valid {y : List ℚ} {t : ℚ} :
    ∀ {models : List (String × List ℚ)}, ValidLabels y →
      (∀ nm ∈ models, (nm : String × List ℚ).2.length = y.length ∧ ValidProbs nm.2) →
      evalRows y t models = .ok (cleanRows y models t) := by
  intro models
  induction models with
  | nil => intro _ _; rfl
  | cons nm rest ih =>
    intro hL hall
    have hnm := hall nm (List.mem_cons_self nm rest)
    have hrow := @evalModelRow_valid_clean y nm.2 t hL.1 hL.2.1 hL.2.2 hnm.1 hnm.2
    unfold evalRows
    rw [hrow, ih hL (fun x hx => hall x (List.mem_cons_of_mem nm hx))]
    rfl

/-! ### The `idxmax` / `idxmin` scan -/


theorem scanBest_max_inv :
    ∀ (qs : List ℚ) (i0 j : ℕ) (b : ℚ),
      ∃ k q, scanBest (fun a c => decide (c < a)) (qs.map some) i0 (some (j, b)) = some (k, q) ∧
        ((k = j ∧ q = b ∧ ∀ m qm, qs.get? m = some qm → qm ≤ b) ∨
         (∃ m, k = i0 + m ∧ qs.get? m = some q ∧ b < q ∧
           (∀ m' qm', qs.get? m' = some qm' → qm' ≤ q) ∧
           (∀ m', m' < m → ∀ qm', qs.get? m' = some qm' → qm' < q))) := by
  intro qs
  induction qs with
  | nil =>
    intro i0 j b
    exact ⟨j, b, rfl, Or.inl ⟨rfl, rfl, by simp⟩⟩
  | cons v rest ih =>
    intro i0 j b
    by_cases hvb : b < v
    · obtain ⟨k, q, heq, hspec⟩ := ih (i0 + 1) i0 v
      refine ⟨k, q, ?_, ?_⟩
      · simp only [List.map_cons, scanBest, decide_eq_true_eq]
        rw [if_pos hvb]
        exact heq
      · rcases hspec with ⟨hk, hq, hall⟩ | ⟨m, hk, hget, hlt, hall, hearly⟩
        · refine Or.inr ⟨0, by omega, ?_, by rw [hq]; exact hvb, ?_, by omega⟩
          · rw [List.get?_cons_zero, hq]
          · intro m' qm' hm'
            cases m' with
            | zero =>
              rw [List.get?_cons_zero] at hm'
              injection hm' with hveq
              subst hveq
              exact le_of_eq hq.symm
            | succ n =>
              exact le_trans (hall n qm' (by simpa using hm')) (le_of_eq hq.symm)
        · refine Or.inr ⟨m + 1, by omega, by simpa using hget, lt_trans hvb hlt, ?_, ?_⟩
          · intro m' qm' hm'
            cases m' with
            | zero =>
              rw [List.get?_cons_zero] at hm'
              injection hm' with hveq
              subst hveq
              exact le_of_lt hlt
            | succ n => exact hall n qm' (by simpa using hm')
          · intro m' hm' qm' hget'
            cases m' with
            | zero =>
              rw [List.get?_cons_zero] at hget'
              injection hget' with hveq
              subst hveq
              exact hlt
            | succ n => exact hearly n (by omega) qm' (by simpa using hget')
    · obtain ⟨k, q, heq, hspec⟩ := ih (i0 + 1) j b
      refine ⟨k, q, ?_, ?_⟩
      · simp only [List.map_cons, scanBest, decide_eq_true_eq]
        rw [if_neg hvb]
        exact heq
      · rcases hspec with ⟨hk, hq, hall⟩ | ⟨m, hk, hget, hlt, hall, hearly⟩
        · refine Or.inl ⟨hk, hq, ?_⟩
          intro m' qm' hm'
          cases m' with
          | zero =>
            rw [List.get?_cons_zero] at hm'
            injection hm' with hveq
            subst hveq
            exact not_lt.1 hvb
          | succ n => exact hall n qm' (by simpa using hm')
        · refine Or.inr ⟨m + 1, by omega, by simpa using hget, hlt, ?_, ?_⟩
          · intro m' qm' hm'
            cases m' with
            | zero =>
              rw [List.get?_cons_zero] at hm'
              injection hm' with hveq
              subst hveq
              exact le_of_lt (lt_of_le_of_lt (not_lt.1 hvb) hlt)
            | succ n => exact hall n qm' (by simpa using hm')
          · intro m' hm' qm' hget'
            cases m' with
            | zero =>
              rw [List.get?_cons_zero] at hget'
              injection hget' with hveq
              subst hveq
              exact lt_of_le_of_lt (not_lt.1 hvb) hlt
            | succ n => exact hearly n (by omega) qm' (by simpa using hget')

theorem scanBest_min_inv :
    ∀ (qs : List ℚ) (i0 j : ℕ) (b : ℚ),
      ∃ k q, scanBest (fun a c => decide (a < c)) (qs.map some) i0 (some (j, b)) = some (k, q) ∧
        ((k = j ∧ q = b ∧ ∀ m qm, qs.get? m = some qm → b ≤ qm) ∨
         (∃ m, k = i0 + m ∧ qs.get? m = some q ∧ q < b ∧
           (∀ m' qm', qs.get? m' = some qm' → q ≤ qm') ∧
           (∀ m', m' < m → ∀ qm', qs.get? m' = some qm' → q < qm'))) := by
  intro qs
  induction qs with
  | nil =>
    intro i0 j b
    exact ⟨j, b, rfl, Or.inl ⟨rfl, rfl, by simp⟩⟩
  | cons v rest ih =>
    intro i0 j b
    by_cases hvb : v < b
    · obtain ⟨k, q, heq, hspec⟩ := ih (i0 + 1) i0 v
      refine ⟨k, q, ?_, ?_⟩
      · simp only [List.map_cons, scanBest, decide_eq_true_eq]
        rw [if_pos hvb]
        exact heq
      · rcases hspec with ⟨hk, hq, hall⟩ | ⟨m, hk, hget, hlt, hall, hearly⟩
        · refine Or.inr ⟨0, by omega, ?_, by rw [hq]; exact hvb, ?_, by omega⟩
          · rw [List.get?_cons_zero, hq]
          · intro m' qm' hm'
            cases m' with
            | zero =>
              rw [List.get?_cons_zero] at hm'
              injection hm' with hveq
              subst hveq
              exact le_of_eq hq
            | succ n =>
              exact le_trans (le_of_eq hq) (hall n qm' (by simpa using hm'))
        · refine Or.inr ⟨m + 1, by omega, by simpa using hget, lt_trans hlt hvb, ?_, ?_⟩
          · intro m' qm' hm'
            cases m' with
            | zero =>
              rw [List.get?_cons_zero] at hm'
              injection hm' with hveq
              subst hveq
              exact le_of_lt hlt
            | succ n => exact hall n qm' (by simpa using hm')
          · intro m' hm' qm' hget'
            cases m' with
            | zero =>
              rw [List.get?_cons_zero] at hget'
              injection hget' with hveq
              subst hveq
              exact hlt
            | succ n => exact hearly n (by omega) qm' (by simpa using hget')
    · obtain ⟨k, q, heq, hspec⟩ := ih (i0 + 1) j b
      refine ⟨k, q, ?_, ?_⟩
      · simp only [List.map_cons, scanBest, decide_eq_true_eq]
        rw [if_neg hvb]
        exact heq
      · rcases hspec with ⟨hk, hq, hall⟩ | ⟨m, hk, hget, hlt, hall, hearly⟩
        · refine Or.inl ⟨hk, hq, ?_⟩
          intro m' qm' hm'
          cases m' with
          | zero =>
            rw [List.get?_cons_zero] at hm'
            injection hm' with hveq
            subst hveq
            exact not_lt.1 hvb
          | succ n => exact hall n qm' (by simpa using hm')
        · refine Or.inr ⟨m + 1, by omega, by simpa using hget, hlt, ?_, ?_⟩
          · intro m' qm' hm'
            cases m' with
            | zero =>
              rw [List.get?_cons_zero] at hm'
              injection hm' with hveq
              subst hveq
              exact le_of_lt (lt_of_lt_of_le hlt (not_lt.1 hvb))
            | succ n => exact hall n qm' (by simpa using hm')
          · intro m' hm' qm' hget'
            cases m' with
            | zero =>
              rw [List.get?_cons_zero] at hget'
              injection hget' with hveq
              subst hveq
              exact lt_of_lt_of_le hlt (not_lt.1 hvb)
            | succ n => exact hearly n (by omega) qm' (by simpa using hget')

theorem idxExtreme_max_spec (msg : String) :
    ∀ (qs : List ℚ), qs ≠ [] →
      ∃ k q, idxExtreme (fun a c => decide (c < a)) (qs.map some) msg = .ok k ∧
        qs.get? k = some q ∧ (∀ m qm, qs.get? m = some qm → qm ≤ q) ∧
        (∀ m, m < k → ∀ qm, qs.get? m = some qm → qm < q) := by
  intro qs hne
  cases qs with
  | nil => exact absurd rfl hne
  | cons v rest =>
    obtain ⟨k, q, heq, hspec⟩ := scanBest_max_inv rest 1 0 v
    have hstep : scanBest (fun a c => decide (c < a)) ((v :: rest).map some) 0 none =
        some (k, q) := by
      simp only [List.map_cons, scanBest]
      exact heq
    refine ⟨k, q, by simp only [idxExtreme, hstep], ?_, ?_, ?_⟩
    · rcases hspec with ⟨hk, hq, _⟩ | ⟨m, hk, hget, _, _, _⟩
      · rw [hk, List.get?_cons_zero, hq]
      · rw [hk, Nat.add_comm 1 m]
        simpa using hget
    · intro m qm hm
      rcases hspec with ⟨hk, hq, hall⟩ | ⟨mw, hk, hget, hlt, hall, hearly⟩
      · cases m with
        | zero =>
          rw [List.get?_cons_zero] at hm
          injection hm with hveq
          subst hveq
          exact le_of_eq hq.symm
        | succ n => exact le_trans (hall n qm (by simpa using hm)) (le_of_eq hq.symm)
      · cases m with
        | zero =>
          rw [List.get?_cons_zero] at hm
          injection hm with hveq
          subst hveq
          exact le_of_lt hlt
        | succ n => exact hall n qm (by simpa using hm)
    · intro m hmk qm hm
      rcases hspec with ⟨hk, hq, hall⟩ | ⟨mw, hk, hget, hlt, hall, hearly⟩
      · omega
      · cases m with
        | zero =>
          rw [List.get?_cons_zero] at hm
          injection hm with hveq
          subst hveq
          exact hlt
        | succ n => exact hearly n (by omega) qm (by simpa using hm)

theorem idxExtreme_min_spec (msg : String) :
    ∀ (qs : List ℚ), qs ≠ [] →
      ∃ k q, idxExtreme (fun a c => decide (a < c)) (qs.map some) msg = .ok k ∧
        qs.get? k = some q ∧ (∀ m qm, qs.get? m = some qm → q ≤ qm) ∧
        (∀ m, m < k → ∀ qm, qs.get? m = some qm → q < qm) := by
  intro qs hne
  cases qs with
  | nil => exact absurd rfl hne
  | cons v rest =>
    obtain ⟨k, q, heq, hspec⟩ := scanBest_min_inv rest 1 0 v
    have hstep : scanBest (fun a c => decide (a < c)) ((v :: rest).map some) 0 none =
        some (k, q) := by
      simp only [List.map_cons, scanBest]
      exact heq
    refine ⟨k, q, by simp only [idxExtreme, hstep], ?_, ?_, ?_⟩
    · rcases hspec with ⟨hk, hq, _⟩ | ⟨m, hk, hget, _, _, _⟩
      · rw [hk, List.get?_cons_zero, hq]
      · rw [hk, Nat.add_comm 1 m]
        simpa using hget
    · intro m qm hm
      rcases hspec with ⟨hk, hq, hall⟩ | ⟨mw, hk, hget, hlt, hall, hearly⟩
      · cases m with
        | zero =>
          rw [List.get?_cons_zero] at hm
          injection hm with hveq
          subst hveq
          exact le_of_eq hq
        | succ n => exact le_trans (le_of_eq hq) (hall n qm (by simpa using hm))
      · cases m with
        | zero =>
          rw [List.get?_cons_zero] at hm
          injection hm with hveq
          subst hveq
          exact le_of_lt hlt
        | succ n => exact hall n qm (by simpa using hm)
    · intro m hmk qm hm
      rcases hspec with ⟨hk, hq, hall⟩ | ⟨mw, hk, hget, hlt, hall, hearly⟩
      · omega
      · cases m with
        | zero =>
          rw [List.get?_cons_zero] at hm
          injection hm with hveq
          subst hveq
          exact hlt
        | succ n => exact hearly n (by omega) qm (by simpa using hm)

/-- Any list whose mapped values are all defined equals `qs.map some` for
some clean score list. -/
theorem exists_clean_scores {α : Type} (f : α → Option ℚ) :
    ∀ (l : List α), (∀ x ∈ l, ∃ q, f x = some q) →
      ∃ qs : List ℚ, l.map f = qs.map some ∧ qs.length = l.length := by
  intro l
  induction l with
  | nil => intro _; exact ⟨[], rfl, rfl⟩
  | cons x xs ih =>
    intro h
    obtain ⟨q, hq⟩ := h x (List.mem_cons_self x xs)
    obtain ⟨qs, hqs, hlen⟩ := ih (fun z hz => h z (List.mem_cons_of_mem x hz))
    exact ⟨q :: qs, by simp [hq, hqs], by simp [hlen]⟩

/-! ### Best-model selection lemmas -/

theorem bestModelFor_eq_max {rows : List (String × ModelRow)} {m : Metric}
    (hm : m ≠ Metric.brier) :
    bestModelFor rows m =
      (match idxExtreme (fun a c => decide (c < a))
          (rows.map (fun r : String × ModelRow => r.2.get m))
          "attempt to get argmax of an empty sequence" with
        | .error e => .error e
        | .ok i =>
          match rows.get? i with
          | some r => .ok r.1
          | none => .error (.valueError "index out of range")) := by
  cases m
  case brier => exact absurd rfl hm
  all_goals rfl

theorem bestModelFor_eq_min (rows : List (String × ModelRow)) :
    bestModelFor rows Metric.brier =
      (match idxExtreme (fun a c => decide (a < c))
          (rows.map (fun r : String × ModelRow => r.2.get Metric.brier))
          "attempt to get argmin of an empty sequence" with
        | .error e => .error e
        | .ok i =>
          match rows.get? i with
          | some r => .ok r.1
          | none => .error (.valueError "index out of range")) := rfl

theorem bestModelFor_ok_mem {rows : List (String × ModelRow)} {m : Metric} {s : String}
    (h : bestModelFor rows m = .ok s) : s ∈ rows.map Prod.fst := by
  by_cases hm : m = Metric.brier
  · subst hm
    rw [bestModelFor_eq_min] at h
    rcases hidx : idxExtreme (fun a c => decide (a < c))
        (rows.map (fun r : String × ModelRow => r.2.get Metric.brier))
        "attempt to get argmin of an empty sequence" with e | i
    · simp only [hidx] at h
      exact Except.noConfusion h
    · simp only [hidx] at h
      rcases hr : rows.get? i with _ | r
      · simp only [hr] at h
        exact Except.noConfusion h
      · simp only [hr] at h
        injection h with hs
        subst hs
        exact List.mem_map_of_mem Prod.fst (List.get?_mem hr)
  · rw [bestModelFor_eq_max hm] at h
    rcases hidx : idxExtreme (fun a c => decide (c < a))
        (rows.map (fun r : String × ModelRow => r.2.get m))
        "attempt to get argmax of an empty sequence" with e | i
    · simp only [hidx] at h
      exact Except.noConfusion h
    · simp only [hidx] at h
      rcases hr : rows.get? i with _ | r
      · simp only [hr] at h
        exact Except.noConfusion h
      · simp only [hr] at h
        injection h with hs
        subst hs
        exact List.mem_map_of_mem Prod.fst (List.get?_mem hr)

/-- The argmax property of `bestModelFor` for a non-Brier metric on a
column of defined (non-nan) values. -/
theorem bestModelFor_spec_max {rows : List (String × ModelRow)} {m : Metric}
    (hm : m ≠ Metric.brier) {qs : List ℚ}
    (hqs : rows.map (fun r : String × ModelRow => r.2.get m) = qs.map some)
    (hne : rows ≠ []) :
    ∃ k nr q, bestModelFor rows m = .ok nr.1 ∧ rows.get? k = some nr ∧
      nr.2.get m = some q ∧
      (∀ k' nr' q', rows.get? k' = some nr' → nr'.2.get m = some q' → q' ≤ q) ∧
      (∀ k', k' < k → ∀ nr' q', rows.get? k' = some nr' → nr'.2.get m = some q' → q' < q) := by
  have hlenq : qs.length = rows.length := by
    have := congrArg List.length hqs
    simpa using this.symm
  have hqne : qs ≠ [] := by
    intro hcon
    rw [hcon] at hlenq
    exact hne (List.eq_nil_of_length_eq_zero hlenq.symm)
  obtain ⟨k, q, hidx, hget, hall, hearly⟩ :=
    idxExtreme_max_spec "attempt to get argmax of an empty sequence" qs hqne
  have hklen : k < rows.length := by
    rw [← hlenq]
    by_contra hcon
    rw [List.get?_eq_none.2 (Nat.le_of_not_lt hcon)] at hget
    cases hget
  rcases hnr : rows.get? k with _ | nr
  · rw [List.get?_eq_none] at hnr
    omega
  have hnrm : nr.2.get m = some q := by
    have h1 : (rows.map (fun r : String × ModelRow => r.2.get m)).get? k = some (nr.2.get m) := by
      rw [List.get?_map, hnr]
      rfl
    rw [hqs, List.get?_map, hget] at h1
    injection h1 with h2
    exact h2.symm
  have htrans : ∀ k' nr' q', rows.get? k' = some nr' → nr'.2.get m = some q' →
      qs.get? k' = some q' := by
    intro k' nr' q' hk' hq'
    have h1 : (rows.map (fun r : String × ModelRow => r.2.get m)).get? k' =
        some (nr'.2.get m) := by
      rw [List.get?_map, hk']
      rfl
    rw [hqs, List.get?_map] at h1
    rcases hq2 : qs.get? k' with _ | qv
    · rw [hq2] at h1
      cases h1
    · rw [hq2] at h1
      injection h1 with h2
      rw [h2, hq']
  refine ⟨k, nr, q, ?_, hnr, hnrm, ?_, ?_⟩
  · rw [bestModelFor_eq_max hm, hqs]
    simp only [hidx, hnr]
  · intro k' nr' q' hk' hq'
    exact hall k' q' (htrans k' nr' q' hk' hq')
  · intro k' hk'k nr' q' hk' hq'
    exact hearly k' hk'k q' (htrans k' nr' q' hk' hq')

/-- The argmin property of `bestModelFor` for the Brier row. -/
theorem bestModelFor_spec_min {rows : List (String × ModelRow)} {qs : List ℚ}
    (hqs : rows.map (fun r : String × ModelRow => r.2.get Metric.brier) = qs.map some)
    (hne : rows ≠ []) :
    ∃ k nr q, bestModelFor rows Metric.brier = .ok nr.1 ∧ rows.get? k = some nr ∧
      nr.2.get Metric.brier = some q ∧
      (∀ k' nr' q', rows.get? k' = some nr' → nr'.2.get Metric.brier = some q' → q ≤ q') ∧
      (∀ k', k' < k → ∀ nr' q', rows.get? k' = some nr' →
        nr'.2.get Metric.brier = some q' → q < q') := by
  have hlenq : qs.length = rows.length := by
    have := congrArg List.length hqs
    simpa using this.symm
  have hqne : qs ≠ [] := by
    intro hcon
    rw [hcon] at hlenq
    exact hne (List.eq_nil_of_length_eq_zero hlenq.symm)
  obtain ⟨k, q, hidx, hget, hall, hearly⟩ :=
    idxExtreme_min_spec "attempt to get argmin of an empty sequence" qs hqne
  have hklen : k < rows.length := by
    rw [← hlenq]
    by_contra hcon
    rw [List.get?_eq_none.2 (Nat.le_of_not_lt hcon)] at hget
    cases hget
  rcases hnr : rows.get? k with _ | nr
  · rw [List.get?_eq_none] at hnr
    omega
  have hnrm : nr.2.get Metric.brier = some q := by
    have h1 : (rows.map (fun r : String × ModelRow => r.2.get Metric.brier)).get? k =
        some (nr.2.get Metric.brier) := by
      rw [List.get?_map, hnr]
      rfl
    rw [hqs, List.get?_map, hget] at h1
    injection h1 with h2
    exact h2.symm
  have htrans : ∀ k' nr' q', rows.get? k' = some nr' → nr'.2.get Metric.brier = some q' →
      qs.get? k' = some q' := by
    intro k' nr' q' hk' hq'
    have h1 : (rows.map (fun r : String × ModelRow => r.2.get Metric.brier)).get? k' =
        some (nr'.2.get Metric.brier) := by
      rw [List.get?_map, hk']
      rfl
    rw [hqs, List.get?_map] at h1
    rcases hq2 : qs.get? k' with _ | qv
    · rw [hq2] at h1
      cases h1
    · rw [hq2] at h1
      injection h1 with h2
      rw [h2, hq']
  refine ⟨k, nr, q, ?_, hnr, hnrm, ?_, ?_⟩
  · rw [bestModelFor_eq_min, hqs]
    simp only [hidx, hnr]
  · intro k' nr' q' hk' hq'
    exact hall k' q' (htrans k' nr' q' hk' hq')
  · intro k' hk'k nr' q' hk' hq'
    exact hearly k' hk'k q' (htrans k' nr' q' hk' hq')

/-! ### The whole call on valid inputs -/

theorem cleanRows_ne_nil {y : List ℚ} {models : List (String × List ℚ)} {t : ℚ}
    (hm : models ≠ []) : cleanRows y models t ≠ [] := by
  intro hcon
  exact hm (List.map_eq_nil.1 hcon)

theorem cleanRows_scores_some {y : List ℚ} {models : List (String × List ℚ)} {t : ℚ}
    {m : Metric} (hL : ValidLabels y)
    (hall : ∀ nm ∈ models, (nm : String × List ℚ).2.length = y.length ∧ ValidProbs nm.2) :
    ∀ x ∈ cleanRows y models t, ∃ q, (x : String × ModelRow).2.get m = some q := by
  intro x hx
  obtain ⟨nm, hnm, rfl⟩ := List.mem_map.1 hx
  obtain ⟨q, hq, _, _⟩ := cleanRow_get_bounds hL.1 hL.2.1 hL.2.2
    (hall nm hnm).1 (hall nm hnm).2 m
  exact ⟨q, hq⟩

theorem bestModelFor_clean_ok {y : List ℚ} {models : List (String × List ℚ)} {t : ℚ}
    {m : Metric} (hL : ValidLabels y) (hm : models ≠ [])
    (hall : ∀ nm ∈ models, (nm : String × List ℚ).2.length = y.length ∧ ValidProbs nm.2) :
    ∃ s, bestModelFor (cleanRows y models t) m = .ok s := by
  obtain ⟨qs, hqs, _⟩ := exists_clean_scores
    (fun r : String × ModelRow => r.2.get m) (cleanRows y models t)
    (cleanRows_scores_some hL hall)
  by_cases hb : m = Metric.brier
  · subst hb
    obtain ⟨k, nr, q, hok, _, _, _, _⟩ := bestModelFor_spec_min hqs (cleanRows_ne_nil hm)
    exact ⟨nr.1, hok⟩
  · obtain ⟨k, nr, q, hok, _, _, _, _⟩ := bestModelFor_spec_max hb hqs (cleanRows_ne_nil hm)
    exact ⟨nr.1, hok⟩

theorem bestAssign_ok_of_all {rows : List (String × ModelRow)} :
    ∀ (ms : List Metric), (∀ m ∈ ms, ∃ s, bestModelFor rows m = .ok s) →
      ∃ l, bestAssign rows ms = .ok l ∧
        ∀ m ∈ ms, ∃ s, l.lookup m = some s ∧ bestModelFor rows m = .ok s := by
  intro ms
  induction ms with
  | nil => intro _; exact ⟨[], rfl, by simp⟩
  | cons m0 rest ih =>
    intro h
    obtain ⟨s0, hs0⟩ := h m0 (List.mem_cons_self m0 rest)
    obtain ⟨l', hl', hprop⟩ := ih (fun m hm => h m (List.mem_cons_of_mem m0 hm))
    refine ⟨(m0, s0) :: l', ?_, ?_⟩
    · unfold bestAssign
      simp only [hs0, hl']
    · intro m hm
      by_cases hmm : m = m0
      · subst hmm
        exact ⟨s0, by simp, hs0⟩
      · have hm' : m ∈ rest := by
          rcases List.mem_cons.1 hm with rfl | h2
          · exact absurd rfl hmm
          · exact h2
        obtain ⟨s, hls, hbs⟩ := hprop m hm'
        refine ⟨s, ?_, hbs⟩
        rw [List.lookup_cons]
        have hbeq : (m == m0) = false := beq_eq_false_iff_ne.2 hmm
        simp [hbeq, hls]

theorem evaluate_model_metrics_valid {y : List ℚ} {models : List (String × List ℚ)} {t : ℚ}
    (hv : ValidInput y models) :
    ∃ tb, evaluate_model_metrics y models t = .ok tb ∧
      tb.models = cleanRows y models t ∧
      ∀ m : Metric, ∃ s, tb.bestFor m = some s ∧
        bestModelFor (cleanRows y models t) m = .ok s := by
  obtain ⟨hL, hmne, hall⟩ := hv
  have hrows := @evalRows_valid y t models hL hall
  have hbest : ∀ m ∈ metricOrder, ∃ s, bestModelFor (cleanRows y models t) m = .ok s :=
    fun m _ => bestModelFor_clean_ok hL hmne hall
  obtain ⟨l, hl, hprop⟩ := bestAssign_ok_of_all metricOrder hbest
  refine ⟨⟨cleanRows y models t, l⟩, ?_, rfl, ?_⟩
  · unfold evaluate_model_metrics
    simp only [hrows, hl]
  · intro m
    have hmem : m ∈ metricOrder := by cases m <;> simp [metricOrder]
    obtain ⟨s, hls, hbs⟩ := hprop m hmem
    exact ⟨s, hls, hbs⟩

/-! ### Inversion lemmas -/

theorem evalModelRow_ok_fields {y p : List ℚ} {t : ℚ} {r : ModelRow}
    (h : evalModelRow y p t = .ok r) :
    r.precision = some (precision_score y (np_where_gt p t)) ∧
    r.recallVal = some (recall_score y (np_where_gt p t)) ∧
    specificity_calc y (np_where_gt p t) = .ok r.specificity ∧
    r.avgPrecision = average_precision_score y p ∧
    (∃ br, brier_score_loss y p = .ok br ∧ r.brier = some br) ∧
    (∃ ft rocA prA, roc_curve y p = .ok ft ∧ auc ft.1 ft.2 = .ok rocA ∧
      auc (precision_recall_curve y p).2 ((precision_recall_curve y p).1.map some) = .ok prA ∧
      r.aucRoc = rocA ∧ r.prAuc = prA) := by
  unfold evalModelRow at h
  rcases h1 : roc_curve y p with e | ft
  · simp only [h1] at h
    exact Except.noConfusion h
  simp only [h1] at h
  rcases h2 : auc ft.1 ft.2 with e | rocA
  · simp only [h2] at h
    exact Except.noConfusion h
  simp only [h2] at h
  rcases h3 : auc (precision_recall_curve y p).2
      ((precision_recall_curve y p).1.map some) with e | prA
  · simp only [h3] at h
    exact Except.noConfusion h
  simp only [h3] at h
  rcases h4 : specificity_calc y (np_where_gt p t) with e | specA
  · simp only [h4] at h
    exact Except.noConfusion h
  simp only [h4] at h
  rcases h5 : brier_score_loss y p with e | brA
  · simp only [h5] at h
    exact Except.noConfusion h
  simp only [h5] at h
  injection h with h6
  subst h6
  exact ⟨rfl, rfl, rfl, rfl, ⟨brA, rfl, rfl⟩, ⟨ft, rocA, prA, rfl, h2, rfl, rfl, rfl⟩⟩

theorem evaluate_ok_inv {y : List ℚ} {models : List (String × List ℚ)} {t : ℚ}
    {tb : MetricsTable} (h : evaluate_model_metrics y models t = .ok tb) :
    evalRows y t models = .ok tb.models ∧ bestAssign tb.models metricOrder = .ok tb.best := by
  unfold evaluate_model_metrics at h
  rcases h1 : evalRows y t models with e | rows
  · simp only [h1] at h
    exact Except.noConfusion h
  simp only [h1] at h
  rcases h2 : bestAssign rows metricOrder with e | bs
  · simp only [h2] at h
    exact Except.noConfusion h
  simp only [h2] at h
  injection h with h3
  subst h3
  exact ⟨rfl, h2⟩

theorem evalRows_ok_names {y : List ℚ} {t : ℚ} :
    ∀ {models : List (String × List ℚ)} {rows : List (String × ModelRow)},
      evalRows y t models = .ok rows → rows.map Prod.fst = models.map Prod.fst := by
  intro models
  induction models with
  | nil =>
    intro rows h
    unfold evalRows at h
    injection h with h1
    subst h1
    rfl
  | cons nm rest ih =>
    intro rows h
    unfold evalRows at h
    rcases h1 : evalModelRow y nm.2 t with e | r
    · simp only [h1] at h
      exact Except.noConfusion h
    simp only [h1] at h
    rcases h2 : evalRows y t rest with e | rs
    · simp only [h2] at h
      exact Except.noConfusion h
    simp only [h2] at h
    injection h with h3
    subst h3
    simp only [List.map_cons]
    rw [ih h2]

theorem evalRows_ok_row {y : List ℚ} {t : ℚ} :
    ∀ {models : List (String × List ℚ)} {rows : List (String × ModelRow)},
      evalRows y t models = .ok rows →
      ∀ nr ∈ rows, ∃ p, (nr.1, p) ∈ models ∧ evalModelRow y p t = .ok nr.2 := by
  intro models
  induction models with
  | nil =>
    intro rows h
    unfold evalRows at h
    injection h with h1
    subst h1
    simp
  | cons nm rest ih =>
    intro rows h
    unfold evalRows at h
    rcases h1 : evalModelRow y nm.2 t with e | r
    · simp only [h1] at h
      exact Except.noConfusion h
    simp only [h1] at h
    rcases h2 : evalRows y t rest with e | rs
    · simp only [h2] at h
      exact Except.noConfusion h
    simp only [h2] at h
    injection h with h3
    subst h3
    intro nr hnr
    rcases List.mem_cons.1 hnr with rfl | hnr2
    · exact ⟨nm.2, List.mem_cons_self nm rest, h1⟩
    · obtain ⟨p, hp, hrow⟩ := ih h2 nr hnr2
      exact ⟨p, List.mem_cons_of_mem nm hp, hrow⟩

theorem bestAssign_ok_mem {rows : List (String × ModelRow)} :
    ∀ {ms : List Metric} {l : List (Metric × String)},
      bestAssign rows ms = .ok l → ∀ pr ∈ l, bestModelFor rows pr.1 = .ok pr.2 := by
  intro ms
  induction ms with
  | nil =>
    intro l h
    unfold bestAssign at h
    injection h with h1
    subst h1
    simp
  | cons m0 rest ih =>
    intro l h
    unfold bestAssign at h
    rcases h1 : bestModelFor rows m0 with e | s0
    · simp only [h1] at h
      exact Except.noConfusion h
    simp only [h1] at h
    rcases h2 : bestAssign rows rest with e | l'
    · simp only [h2] at h
      exact Except.noConfusion h
    simp only [h2] at h
    injection h with h3
    subst h3
    intro pr hpr
    rcases List.mem_cons.1 hpr with rfl | hpr2
    · exact h1
    · exact ih h2 pr hpr2

theorem lookup_mem {α β : Type} [DecidableEq α] :
    ∀ (l : List (α × β)) (k : α) (s : β), l.lookup k = some s → (k, s) ∈ l := by
  intro l
  induction l with
  | nil =>
    intro k s h
    cases h
  | cons kb rest ih =>
    intro k s h
    rw [show kb = (kb.1, kb.2) from rfl, List.lookup_cons] at h
    rcases hbeq : k == kb.1 with _ | _
    · rw [hbeq] at h
      exact List.mem_cons_of_mem _ (ih k s h)
    · rw [hbeq] at h
      injection h with h1
      subst h1
      have hk : k = kb.1 := eq_of_beq hbeq
      subst hk
      exact List.mem_cons_self _ _

/-! ### Claim theorems -/

/-- C3: on labels `[0,0,1,1]`, one model `"M"` with probabilities
`[0.1, 0.4, 0.6, 0.9]` and threshold `0.5`, the predictions binarize to
`[0,0,1,1]` and the returned table has Precision = Recall = Specificity
= 1 and Brier Score = 0.085 = 17/200 (with `"M"` trivially best
everywhere). -/
theorem claim_C3_end_to_end_example :
    np_where_gt [1/10, 2/5, 3/5, 9/10] (1/2) = [0, 0, 1, 1] ∧
    evaluate_model_metrics [0, 0, 1, 1] [("M", [1/10, 2/5, 3/5, 9/10])] (1/2) =
      .ok { models := [("M",
              { aucRoc := some 1, prAuc := some 1, precision := some 1,
                recallVal := some 1, specificity := some 1,
                avgPrecision := some 1, brier := some (17/200) })],
            best := [(.aucRoc, "M"), (.prAuc, "M"), (.precision, "M"), (.recallVal, "M"),
                     (.specificity, "M"), (.avgPrecision, "M"), (.brier, "M")] } := by
  have hne : ¬ ([0, 0, 1, 1] : List ℚ) = [] := by simp
  constructor
  · norm_num [np_where_gt]
  · norm_num [evaluate_model_metrics, evalRows, evalModelRow, roc_curve,
      thresholdsDesc, sortDesc, insertDesc,
      List.dedup_cons_of_not_mem, List.dedup_cons_of_mem, tpsAt, fpsAt, qdiv0,
      anyDxNeg, allDxLe, oLt, oLe, trapzO, oadd, osub, omul, ohalf, oneg, auc,
      precision_recall_curve, average_precision_score, apDiffs, np_where_gt,
      precision_score, recall_score, tpCount, fpCount, fnCount,
      specificity_calc, cmClasses, sortAsc, insertAsc, countPair,
      brier_score_loss, List.countP_cons, List.countP_nil, hne,
      Bool.or_eq_true, Bool.and_eq_true, decide_eq_true_eq,
      bestAssign, bestModelFor, idxExtreme, scanBest, metricOrder, ModelRow.get, exceptOk]

/-- C8: the aggregator is a pure function of its three arguments - two
calls on equal inputs return equal tables.  (Absence of retained state
and of argument mutation is inherent to the functional embedding: the
source touches no global and builds all intermediate arrays afresh.) -/
theorem claim_C8_deterministic (y₁ y₂ : List ℚ) (m₁ m₂ : List (String × List ℚ))
    (t₁ t₂ : ℚ) (hy : y₁ = y₂) (hm : m₁ = m₂) (ht : t₁ = t₂) :
    evaluate_model_metrics y₁ m₁ t₁ = evaluate_model_metrics y₂ m₂ t₂ := by
  rw [hy, hm, ht]

/-- Witness for C8 at a concrete input. -/
theorem claim_C8_witness :
    evaluate_model_metrics [0, 1] [("A", [1/4, 3/4])] (1/2) =
      evaluate_model_metrics [0, 1] [("A", [1/4, 3/4])] (1/2) :=
  claim_C8_deterministic [0, 1] [0, 1] [("A", [1/4, 3/4])] [("A", [1/4, 3/4])]
    (1/2) (1/2) rfl rfl rfl

/-- C2 counterexample: the threshold 2 lies outside (0, 1), yet the call
returns a complete table instead of raising an `InvalidThresholdError`
(no such validation, or error type, exists in the code). -/
theorem claim_C2_counterexample :
    ¬ ((0 : ℚ) < 2 ∧ (2 : ℚ) < 1) ∧
    exceptOk (evaluate_model_metrics [0, 0, 1, 1] [("M", [1/10, 2/5, 3/5, 9/10])] 2) = true := by
  have hne : ¬ ([0, 0, 1, 1] : List ℚ) = [] := by simp
  constructor
  · norm_num
  · norm_num [evaluate_model_metrics, evalRows, evalModelRow, roc_curve,
      thresholdsDesc, sortDesc, insertDesc,
      List.dedup_cons_of_not_mem, List.dedup_cons_of_mem, tpsAt, fpsAt, qdiv0,
      anyDxNeg, allDxLe, oLt, oLe, trapzO, oadd, osub, omul, ohalf, oneg, auc,
      precision_recall_curve, average_precision_score, apDiffs, np_where_gt,
      precision_score, recall_score, tpCount, fpCount, fnCount,
      specificity_calc, cmClasses, sortAsc, insertAsc, countPair,
      brier_score_loss, List.countP_cons, List.countP_nil, hne,
      Bool.or_eq_true, Bool.and_eq_true, decide_eq_true_eq,
      bestAssign, bestModelFor, idxExtreme, scanBest, metricOrder, ModelRow.get, exceptOk]

/-- C2 amended: `evaluate_model_metrics` performs no upfront input
validation and none of the four named error types exists.  A threshold
outside (0,1) is silently accepted (any threshold gives a full table on
otherwise valid inputs); a length mismatch surfaces as the metric
library's `ValueError` raised from inside the first metric computation
(`roc_curve`); an empty model map fails only after the (empty) metric
loop, at the `idxmax` of the best-model step.  No partial table is ever
returned: any raised error aborts the whole call. -/
theorem claim_C2_amended :
    (∀ (y : List ℚ) (models : List (String × List ℚ)) (t : ℚ), ValidInput y models →
      ∃ tb, evaluate_model_metrics y models t = .ok tb) ∧
    (∀ (y p : List ℚ) (t : ℚ) (n : String) (rest : List (String × List ℚ)),
      ¬ y.length = p.length →
      evaluate_model_metrics y ((n, p) :: rest) t =
        .error (.valueError "Found input variables with inconsistent numbers of samples")) ∧
    (∀ (y : List ℚ) (t : ℚ), evaluate_model_metrics y [] t =
      .error (.valueError "attempt to get argmax of an empty sequence")) := by
  refine ⟨?_, ?_, ?_⟩
  · intro y models t hv
    obtain ⟨tb, htb, _, _⟩ := evaluate_model_metrics_valid hv
    exact ⟨tb, htb⟩
  · intro y p t n rest hlen
    have hroc : roc_curve y p =
        .error (.valueError "Found input variables with inconsistent numbers of samples") := by
      unfold roc_curve
      rw [if_pos hlen]
    have hrow : evalModelRow y p t =
        .error (.valueError "Found input variables with inconsistent numbers of samples") := by
      unfold evalModelRow
      simp only [hroc]
    have hrows : evalRows y t ((n, p) :: rest) =
        .error (.valueError "Found input variables with inconsistent numbers of samples") := by
      unfold evalRows
      simp only [hrow]
    unfold evaluate_model_metrics
    simp only [hrows]
  · intro y t
    rfl

/-- Witness for C2's amended statement at concrete inputs. -/
theorem claim_C2_amended_witness :
    (∃ tb, evaluate_model_metrics [0, 1] [("A", [1/4, 3/4])] 2 = .ok tb) ∧
    evaluate_model_metrics [0, 1] [("M", [1/2])] (1/2) =
      .error (.valueError "Found input variables with inconsistent numbers of samples") := by
  constructor
  · exact claim_C2_amended.1 [0, 1] [("A", [1/4, 3/4])] 2
      (by unfold ValidInput ValidLabels ValidProbs; norm_num)
  · exact claim_C2_amended.2.1 [0, 1] [1/2] (1/2) "M" [] (by decide)

theorem pyIndex_eq_none : ∀ {l : List String} {x : String}, x ∉ l → pyIndex x l = none := by
  intro l
  induction l with
  | nil => intro x _; rfl
  | cons c cs ih =>
    intro x hx
    have hc : ¬ c = x := fun h => hx (h ▸ List.mem_cons_self c cs)
    unfold pyIndex
    rw [if_neg hc, ih (fun h => hx (List.mem_cons_of_mem c h))]
    rfl

theorem pyIndex_insert (v : String) :
    ∀ (l : List String) (x : String), x ∈ l →
      ∃ i l₁ l₂, pyIndex x l = some i ∧ pyInsert i v l = l₁ ++ v :: x :: l₂ ∧
        List.Perm (l₁ ++ v :: x :: l₂) (v :: l) := by
  intro l
  induction l with
  | nil => simp
  | cons c cs ih =>
    intro x hx
    by_cases hc : c = x
    · subst hc
      exact ⟨0, [], cs, by simp [pyIndex], rfl, List.Perm.refl _⟩
    · have hx2 : x ∈ cs := by
        rcases List.mem_cons.1 hx with rfl | h
        · exact absurd rfl hc
        · exact h
      obtain ⟨i, l₁, l₂, hidx, hins, hperm⟩ := ih x hx2
      refine ⟨i + 1, c :: l₁, l₂, ?_, ?_, ?_⟩
      · simp [pyIndex, hc, hidx]
      · simp only [pyInsert, hins, List.cons_append]
      · exact (hperm.cons c).trans (List.Perm.swap v c cs)

/-- C10 counterexample: with the target and before column equal (and
present), the code raises `ValueError` from `list.index` instead of
returning a reordered frame. -/
theorem claim_C10_counterexample :
    move_column_before ["a", "b"] "a" "a" = .error (.valueError "x not in list") := by
  rfl

/-- C10 amended: if either column is missing, the original column order
is returned unchanged (no exception); if both are present and the two
names are distinct, the result places the target column immediately to
the left of the before column and is a permutation of the original
columns; but if the two names coincide (for a duplicate-free column
list), the call raises `ValueError`, because removing the target deletes
the only occurrence that `list.index` then searches for. -/
theorem claim_C10_amended (cols : List String) (target_column before_column : String) :
    (¬ (target_column ∈ cols ∧ before_column ∈ cols) →
      move_column_before cols target_column before_column = .ok cols) ∧
    (target_column ∈ cols → before_column ∈ cols → target_column ≠ before_column →
      ∃ l₁ l₂, move_column_before cols target_column before_column =
          .ok (l₁ ++ target_column :: before_column :: l₂) ∧
        List.Perm (l₁ ++ target_column :: before_column :: l₂) cols) ∧
    (cols.Nodup → target_column ∈ cols → target_column = before_column →
      move_column_before cols target_column before_column =
        .error (.valueError "x not in list")) := by
  refine ⟨?_, ?_, ?_⟩
  · intro hmiss
    unfold move_column_before
    rw [if_pos hmiss]
  · intro htgt hbef hne
    have hbef2 : before_column ∈ cols.erase target_column :=
      (List.mem_erase_of_ne (Ne.symm hne)).2 hbef
    obtain ⟨i, l₁, l₂, hidx, hins, hperm⟩ :=
      pyIndex_insert target_column (cols.erase target_column) before_column hbef2
    refine ⟨l₁, l₂, ?_, ?_⟩
    · unfold move_column_before
      rw [if_neg (not_not.2 ⟨htgt, hbef⟩)]
      simp only [hidx, hins]
    · exact hperm.trans (List.perm_cons_erase htgt).symm
  · intro hnd htgt heq
    subst heq
    have hnot : target_column ∉ cols.erase target_column := hnd.not_mem_erase
    unfold move_column_before
    rw [if_neg (not_not.2 ⟨htgt, htgt⟩)]
    simp only [pyIndex_eq_none hnot]

/-- Witness for C10's amended statement at concrete inputs. -/
theorem claim_C10_amended_witness :
    move_column_before ["a", "b", "c"] "x" "b" = .ok ["a", "b", "c"] ∧
    (∃ l₁ l₂, move_column_before ["a", "b", "c"] "c" "b" =
        .ok (l₁ ++ "c" :: "b" :: l₂) ∧
      List.Perm (l₁ ++ "c" :: "b" :: l₂) ["a", "b", "c"]) ∧
    move_column_before ["a", "b"] "a" "a" = .error (.valueError "x not in list") := by
  refine ⟨?_, ?_, ?_⟩
  · exact (claim_C10_amended ["a", "b", "c"] "x" "b").1 (by decide)
  · exact (claim_C10_amended ["a", "b", "c"] "c" "b").2.1 (by decide) (by decide) (by decide)
  · exact (claim_C10_amended ["a", "b"] "a" "a").2.2 (by decide) (by decide) rfl

theorem roc_curve_ok_checks {y p : List ℚ} {ft : List (Option ℚ) × List (Option ℚ)}
    (h : roc_curve y p = .ok ft) :
    y.length = p.length ∧ y ≠ [] ∧ ∀ v ∈ y, v = 0 ∨ v = 1 := by
  by_cases hc1 : y.length = p.length
  · by_cases hc2 : y = [] ∨ ¬ y.all (fun v => decide (v = 0 ∨ v = 1))
    · unfold roc_curve at h
      rw [if_neg (not_not.2 hc1), if_pos hc2] at h
      exact Except.noConfusion h
    · push_neg at hc2
      refine ⟨hc1, hc2.1, ?_⟩
      have := hc2.2
      intro v hv
      have h2 := List.all_eq_true.1 this v hv
      exact of_decide_eq_true h2
  · unfold roc_curve at h
    rw [if_pos hc1] at h
    exact Except.noConfusion h

theorem tpCount_np (y p : List ℚ) (t : ℚ) :
    tpCount y (np_where_gt p t) =
      (y.zip p).countP (fun s => decide (s.1 = 1 ∧ t < s.2)) := by
  unfold tpCount np_where_gt
  rw [List.zip_map_right, List.countP_map]
  apply List.countP_congr
  intro s _
  by_cases h : t < s.2 <;> simp [h]

theorem fnCount_np (y p : List ℚ) (t : ℚ) :
    fnCount y (np_where_gt p t) =
      (y.zip p).countP (fun s => decide (s.1 = 1 ∧ ¬ t < s.2)) := by
  unfold fnCount np_where_gt
  rw [List.zip_map_right, List.countP_map]
  apply List.countP_congr
  intro s _
  by_cases h : t < s.2 <;> simp [h]

theorem countPair00_np (y p : List ℚ) (t : ℚ) :
    countPair y (np_where_gt p t) 0 0 =
      (y.zip p).countP (fun s => decide (s.1 = 0 ∧ ¬ t < s.2)) := by
  unfold countPair np_where_gt
  rw [List.zip_map_right, List.countP_map]
  apply List.countP_congr
  intro s _
  by_cases h : t < s.2 <;> simp [h]

theorem countPair01_np (y p : List ℚ) (t : ℚ) :
    countPair y (np_where_gt p t) 0 1 =
      (y.zip p).countP (fun s => decide (s.1 = 0 ∧ t < s.2)) := by
  unfold countPair np_where_gt
  rw [List.zip_map_right, List.countP_map]
  apply List.countP_congr
  intro s _
  by_cases h : t < s.2 <;> simp [h]

theorem recall_score_np_anti (y p : List ℚ) {t₁ t₂ : ℚ} (h : t₁ ≤ t₂) :
    recall_score y (np_where_gt p t₂) ≤ recall_score y (np_where_gt p t₁) := by
  have hsum1 : tpCount y (np_where_gt p t₁) + fnCount y (np_where_gt p t₁) =
      (y.zip p).countP (fun s => decide (s.1 = 1)) := by
    rw [tpCount_np, fnCount_np]
    exact countP_and_split (y.zip p) (fun s => s.1 = 1) (fun s => t₁ < s.2)
  have hsum2 : tpCount y (np_where_gt p t₂) + fnCount y (np_where_gt p t₂) =
      (y.zip p).countP (fun s => decide (s.1 = 1)) := by
    rw [tpCount_np, fnCount_np]
    exact countP_and_split (y.zip p) (fun s => s.1 = 1) (fun s => t₂ < s.2)
  have htp : tpCount y (np_where_gt p t₂) ≤ tpCount y (np_where_gt p t₁) := by
    rw [tpCount_np, tpCount_np]
    apply List.countP_mono_left
    intro s _ hs
    simp only [decide_eq_true_eq] at hs ⊢
    exact ⟨hs.1, lt_of_le_of_lt h hs.2⟩
  unfold recall_score
  by_cases hz : (y.zip p).countP (fun s => decide (s.1 = 1)) = 0
  · rw [if_pos (by omega), if_pos (by omega)]
  · rw [if_neg (by omega), if_neg (by omega)]
    have hcast1 : ((tpCount y (np_where_gt p t₁) : ℕ) : ℚ) +
        ((fnCount y (np_where_gt p t₁) : ℕ) : ℚ) =
        (((y.zip p).countP (fun s => decide (s.1 = 1)) : ℕ) : ℚ) := by
      exact_mod_cast congrArg (fun n : ℕ => (n : ℚ)) hsum1
    have hcast2 : ((tpCount y (np_where_gt p t₂) : ℕ) : ℚ) +
        ((fnCount y (np_where_gt p t₂) : ℕ) : ℚ) =
        (((y.zip p).countP (fun s => decide (s.1 = 1)) : ℕ) : ℚ) := by
      exact_mod_cast congrArg (fun n : ℕ => (n : ℚ)) hsum2
    rw [hcast1, hcast2]
    have hpos : (0 : ℚ) < (((y.zip p).countP (fun s => decide (s.1 = 1)) : ℕ) : ℚ) := by
      exact_mod_cast Nat.pos_of_ne_zero hz
    exact (div_le_div_iff_of_pos_right hpos).2 (by exact_mod_cast htp)

theorem specV_np_mono (y p : List ℚ) {t₁ t₂ : ℚ} (h : t₁ ≤ t₂) :
    specV y (np_where_gt p t₁) ≤ specV y (np_where_gt p t₂) := by
  have hsum1 : countPair y (np_where_gt p t₁) 0 1 + countPair y (np_where_gt p t₁) 0 0 =
      (y.zip p).countP (fun s => decide (s.1 = 0)) := by
    rw [countPair00_np, countPair01_np]
    exact countP_and_split (y.zip p) (fun s => s.1 = 0) (fun s => t₁ < s.2)
  have hsum2 : countPair y (np_where_gt p t₂) 0 1 + countPair y (np_where_gt p t₂) 0 0 =
      (y.zip p).countP (fun s => decide (s.1 = 0)) := by
    rw [countPair00_np, countPair01_np]
    exact countP_and_split (y.zip p) (fun s => s.1 = 0) (fun s => t₂ < s.2)
  have htn : countPair y (np_where_gt p t₁) 0 0 ≤ countPair y (np_where_gt p t₂) 0 0 := by
    rw [countPair00_np, countPair00_np]
    apply List.countP_mono_left
    intro s _ hs
    simp only [decide_eq_true_eq] at hs ⊢
    exact ⟨hs.1, fun hc => hs.2 (lt_of_le_of_lt h hc)⟩
  unfold specV
  by_cases hz : (y.zip p).countP (fun s => decide (s.1 = 0)) = 0
  · have h1 : countPair y (np_where_gt p t₁) 0 0 = 0 := by omega
    have h2 : countPair y (np_where_gt p t₁) 0 1 = 0 := by omega
    have h3 : countPair y (np_where_gt p t₂) 0 0 = 0 := by omega
    have h4 : countPair y (np_where_gt p t₂) 0 1 = 0 := by omega
    rw [h1, h2, h3, h4]
  · have hcast1 : ((countPair y (np_where_gt p t₁) 0 0 : ℕ) : ℚ) +
        ((countPair y (np_where_gt p t₁) 0 1 : ℕ) : ℚ) =
        (((y.zip p).countP (fun s => decide (s.1 = 0)) : ℕ) : ℚ) := by
      exact_mod_cast congrArg (fun n : ℕ => (n : ℚ)) (by omega : countPair y (np_where_gt p t₁) 0 0 + countPair y (np_where_gt p t₁) 0 1 = (y.zip p).countP (fun s => decide (s.1 = 0)))
    have hcast2 : ((countPair y (np_where_gt p t₂) 0 0 : ℕ) : ℚ) +
        ((countPair y (np_where_gt p t₂) 0 1 : ℕ) : ℚ) =
        (((y.zip p).countP (fun s => decide (s.1 = 0)) : ℕ) : ℚ) := by
      exact_mod_cast congrArg (fun n : ℕ => (n : ℚ)) (by omega : countPair y (np_where_gt p t₂) 0 0 + countPair y (np_where_gt p t₂) 0 1 = (y.zip p).countP (fun s => decide (s.1 = 0)))
    rw [hcast1, hcast2]
    have hpos : (0 : ℚ) < (((y.zip p).countP (fun s => decide (s.1 = 0)) : ℕ) : ℚ) := by
      exact_mod_cast Nat.pos_of_ne_zero hz
    exact (div_le_div_iff_of_pos_right hpos).2 (by exact_mod_cast htn)

/-- C4: binarization uses a strict greater-than against the threshold
(a probability equal to the threshold is classified 0), and the four
metrics computed from the raw probabilities - AUC ROC, PR AUC, Average
Precision, Brier Score - do not depend on the threshold at all. -/
theorem claim_C4_strict_threshold_binarization :
    (∀ (p : List ℚ) (t : ℚ) (i : ℕ) (v : ℚ), p.get? i = some v →
      (np_where_gt p t).get? i = some (if t < v then 1 else 0) ∧
      (v = t → (np_where_gt p t).get? i = some 0)) ∧
    (∀ (y p : List ℚ) (t₁ t₂ : ℚ) (r₁ r₂ : ModelRow),
      evalModelRow y p t₁ = .ok r₁ → evalModelRow y p t₂ = .ok r₂ →
      r₁.aucRoc = r₂.aucRoc ∧ r₁.prAuc = r₂.prAuc ∧
      r₁.avgPrecision = r₂.avgPrecision ∧ r₁.brier = r₂.brier) := by
  constructor
  · intro p t i v hv
    have hmap : (np_where_gt p t).get? i =
        (p.get? i).map (fun w => if t < w then (1 : ℚ) else 0) := List.get?_map _ _ _
    constructor
    · rw [hmap, hv]
      rfl
    · intro hvt
      subst hvt
      rw [hmap, hv]
      simp [lt_irrefl]
  · intro y p t₁ t₂ r₁ r₂ h₁ h₂
    obtain ⟨_, _, _, hap₁, ⟨br₁, hbr₁, hbre₁⟩,
      ⟨ft₁, rocA₁, prA₁, hroc₁, hauc₁, hpra₁, he₁, hf₁⟩⟩ := evalModelRow_ok_fields h₁
    obtain ⟨_, _, _, hap₂, ⟨br₂, hbr₂, hbre₂⟩,
      ⟨ft₂, rocA₂, prA₂, hroc₂, hauc₂, hpra₂, he₂, hf₂⟩⟩ := evalModelRow_ok_fields h₂
    have hft : ft₁ = ft₂ := by
      rw [hroc₁] at hroc₂
      exact Except.ok.inj hroc₂
    subst hft
    have hrocA : rocA₁ = rocA₂ := by
      rw [hauc₁] at hauc₂
      exact Except.ok.inj hauc₂
    have hprA : prA₁ = prA₂ := by
      rw [hpra₁] at hpra₂
      exact Except.ok.inj hpra₂
    have hbr : br₁ = br₂ := by
      rw [hbr₁] at hbr₂
      exact Except.ok.inj hbr₂
    exact ⟨by rw [he₁, he₂, hrocA], by rw [hf₁, hf₂, hprA],
      by rw [hap₁, hap₂], by rw [hbre₁, hbre₂, hbr]⟩

/-- Witness for C4 at concrete inputs (a probability exactly at the
threshold, and the same model evaluated at thresholds 1/2 and 3/4). -/
theorem claim_C4_witness :
    ((np_where_gt [1/2] (1/2)).get? 0 = some (if (1/2 : ℚ) < 1/2 then 1 else 0) ∧
      ((1/2 : ℚ) = 1/2 → (np_where_gt [1/2] (1/2)).get? 0 = some 0)) ∧
    (ModelRow.aucRoc
      { aucRoc := some 1, prAuc := some 1, precision := some 1, recallVal := some 1,
        specificity := some 1, avgPrecision := some 1, brier := some (17/200) } =
    ModelRow.aucRoc
      { aucRoc := some 1, prAuc := some 1, precision := some 1, recallVal := some (1/2),
        specificity := some 1, avgPrecision := some 1, brier := some (17/200) } ∧
    ModelRow.prAuc
      { aucRoc := some 1, prAuc := some 1, precision := some 1, recallVal := some 1,
        specificity := some 1, avgPrecision := some 1, brier := some (17/200) } =
    ModelRow.prAuc
      { aucRoc := some 1, prAuc := some 1, precision := some 1, recallVal := some (1/2),
        specificity := some 1, avgPrecision := some 1, brier := some (17/200) } ∧
    ModelRow.avgPrecision
      { aucRoc := some 1, prAuc := some 1, precision := some 1, recallVal := some 1,
        specificity := some 1, avgPrecision := some 1, brier := some (17/200) } =
    ModelRow.avgPrecision
      { aucRoc := some 1, prAuc := some 1, precision := some 1, recallVal := some (1/2),
        specificity := some 1, avgPrecision := some 1, brier := some (17/200) } ∧
    ModelRow.brier
      { aucRoc := some 1, prAuc := some 1, precision := some 1, recallVal := some 1,
        specificity := some 1, avgPrecision := some 1, brier := some (17/200) } =
    ModelRow.brier
      { aucRoc := some 1, prAuc := some 1, precision := some 1, recallVal := some (1/2),
        specificity := some 1, avgPrecision := some 1, brier := some (17/200) }) := by
  have hne : ¬ ([0, 0, 1, 1] : List ℚ) = [] := by simp
  have hrow1 : evalModelRow [0, 0, 1, 1] [1/10, 2/5, 3/5, 9/10] (1/2) =
      .ok { aucRoc := some 1, prAuc := some 1, precision := some 1, recallVal := some 1,
            specificity := some 1, avgPrecision := some 1, brier := some (17/200) } := by
    norm_num [evalModelRow, roc_curve, thresholdsDesc, sortDesc, insertDesc,
      List.dedup_cons_of_not_mem, List.dedup_cons_of_mem, tpsAt, fpsAt, qdiv0,
      anyDxNeg, allDxLe, oLt, oLe, trapzO, oadd, osub, omul, ohalf, oneg, auc,
      precision_recall_curve, average_precision_score, apDiffs, np_where_gt,
      precision_score, recall_score, tpCount, fpCount, fnCount,
      specificity_calc, cmClasses, sortAsc, insertAsc, countPair,
      brier_score_loss, List.countP_cons, List.countP_nil, hne,
      Bool.or_eq_true, Bool.and_eq_true, decide_eq_true_eq]
  have hrow2 : evalModelRow [0, 0, 1, 1] [1/10, 2/5, 3/5, 9/10] (3/4) =
      .ok { aucRoc := some 1, prAuc := some 1, precision := some 1, recallVal := some (1/2),
            specificity := some 1, avgPrecision := some 1, brier := some (17/200) } := by
    norm_num [evalModelRow, roc_curve, thresholdsDesc, sortDesc, insertDesc,
      List.dedup_cons_of_not_mem, List.dedup_cons_of_mem, tpsAt, fpsAt, qdiv0,
      anyDxNeg, allDxLe, oLt, oLe, trapzO, oadd, osub, omul, ohalf, oneg, auc,
      precision_recall_curve, average_precision_score, apDiffs, np_where_gt,
      precision_score, recall_score, tpCount, fpCount, fnCount,
      specificity_calc, cmClasses, sortAsc, insertAsc, countPair,
      brier_score_loss, List.countP_cons, List.countP_nil, hne,
      Bool.or_eq_true, Bool.and_eq_true, decide_eq_true_eq]
  exact ⟨claim_C4_strict_threshold_binarization.1 [1/2] (1/2) 0 (1/2) rfl,
    claim_C4_strict_threshold_binarization.2 [0, 0, 1, 1] [1/10, 2/5, 3/5, 9/10]
      (1/2) (3/4) _ _ hrow1 hrow2⟩

/-- C5: with binary labels containing both classes and a length-matched
probability vector, the specificity computation equals
`tn / (tn + fp)` from the 2x2 confusion matrix at the threshold, its
denominator is nonzero (the division-by-zero case would need zero actual
negatives, excluded by the label precondition), and the Specificity
entry of a returned row is exactly this value. -/
theorem claim_C5_specificity_denominator (y p : List ℚ) (t : ℚ)
    (hby : ∀ v ∈ y, v = 0 ∨ v = 1) (h0 : (0 : ℚ) ∈ y) (h1 : (1 : ℚ) ∈ y)
    (hlen : p.length = y.length) :
    specificity_calc y (np_where_gt p t) = .ok (some (specV y (np_where_gt p t))) ∧
    countPair y (np_where_gt p t) 0 0 + countPair y (np_where_gt p t) 0 1 ≠ 0 ∧
    ∀ r, evalModelRow y p t = .ok r →
      r.specificity = some (specV y (np_where_gt p t)) := by
  have hcalc := specificity_calc_valid hby (@np_where_gt_mem p t) h0 h1
    (by rw [np_where_gt_length, hlen])
  refine ⟨hcalc.1, hcalc.2, ?_⟩
  intro r hr
  have h3 := (evalModelRow_ok_fields hr).2.2.1
  rw [hcalc.1] at h3
  exact (Except.ok.inj h3).symm

/-- Witness for C5 at a concrete input. -/
theorem claim_C5_witness :
    specificity_calc [0, 1] (np_where_gt [1/4, 3/4] (1/2)) =
      .ok (some (specV [0, 1] (np_where_gt [1/4, 3/4] (1/2)))) ∧
    countPair [0, 1] (np_where_gt [1/4, 3/4] (1/2)) 0 0 +
      countPair [0, 1] (np_where_gt [1/4, 3/4] (1/2)) 0 1 ≠ 0 ∧
    ∀ r, evalModelRow [0, 1] [1/4, 3/4] (1/2) = .ok r →
      r.specificity = some (specV [0, 1] (np_where_gt [1/4, 3/4] (1/2))) :=
  claim_C5_specificity_denominator [0, 1] [1/4, 3/4] (1/2)
    (by norm_num) (by norm_num) (by norm_num) rfl

/-- C6: for fixed labels (binary, both classes) and a fixed probability
vector, raising the threshold can only lower Recall and raise
Specificity: on any two successful evaluations at thresholds t1 < t2,
the Recall entry at t2 is at most the one at t1 and the Specificity
entry at t2 is at least the one at t1. -/
theorem claim_C6_threshold_monotonic (y p : List ℚ) (t₁ t₂ : ℚ) (r₁ r₂ : ModelRow)
    (h0 : (0 : ℚ) ∈ y) (h1 : (1 : ℚ) ∈ y) (hlt : t₁ < t₂)
    (hr₁ : evalModelRow y p t₁ = .ok r₁) (hr₂ : evalModelRow y p t₂ = .ok r₂) :
    (∃ q₁ q₂, r₁.recallVal = some q₁ ∧ r₂.recallVal = some q₂ ∧ q₂ ≤ q₁) ∧
    (∃ s₁ s₂, r₁.specificity = some s₁ ∧ r₂.specificity = some s₂ ∧ s₁ ≤ s₂) := by
  have hf₁ := evalModelRow_ok_fields hr₁
  have hf₂ := evalModelRow_ok_fields hr₂
  obtain ⟨ft₁, rocA₁, prA₁, hroc₁, _, _, _, _⟩ := hf₁.2.2.2.2.2
  have hchecks := roc_curve_ok_checks hroc₁
  have hby := hchecks.2.2
  have hlen : p.length = y.length := hchecks.1.symm
  constructor
  · exact ⟨_, _, hf₁.2.1, hf₂.2.1, recall_score_np_anti y p (le_of_lt hlt)⟩
  · have hc₁ := specificity_calc_valid hby (@np_where_gt_mem p t₁) h0 h1
      (by rw [np_where_gt_length, hlen])
    have hc₂ := specificity_calc_valid hby (@np_where_gt_mem p t₂) h0 h1
      (by rw [np_where_gt_length, hlen])
    have hs₁ := hf₁.2.2.1
    have hs₂ := hf₂.2.2.1
    rw [hc₁.1] at hs₁
    rw [hc₂.1] at hs₂
    exact ⟨_, _, (Except.ok.inj hs₁).symm, (Except.ok.inj hs₂).symm,
      specV_np_mono y p (le_of_lt hlt)⟩

/-- Witness for C6 at the spec's thresholds 0.3 and 0.7. -/
theorem claim_C6_witness :
    ((∃ q₁ q₂, ModelRow.recallVal
        { aucRoc := some 1, prAuc := some 1, precision := some (2/3), recallVal := some 1,
          specificity := some (1/2), avgPrecision := some 1, brier := some (17/200) } = some q₁ ∧
      ModelRow.recallVal
        { aucRoc := some 1, prAuc := some 1, precision := some 1, recallVal := some (1/2),
          specificity := some 1, avgPrecision := some 1, brier := some (17/200) } = some q₂ ∧
      q₂ ≤ q₁) ∧
    (∃ s₁ s₂, ModelRow.specificity
        { aucRoc := some 1, prAuc := some 1, precision := some (2/3), recallVal := some 1,
          specificity := some (1/2), avgPrecision := some 1, brier := some (17/200) } = some s₁ ∧
      ModelRow.specificity
        { aucRoc := some 1, prAuc := some 1, precision := some 1, recallVal := some (1/2),
          specificity := some 1, avgPrecision := some 1, brier := some (17/200) } = some s₂ ∧
      s₁ ≤ s₂)) := by
  have hne : ¬ ([0, 0, 1, 1] : List ℚ) = [] := by simp
  have hrow1 : evalModelRow [0, 0, 1, 1] [1/10, 2/5, 3/5, 9/10] (3/10) =
      .ok { aucRoc := some 1, prAuc := some 1, precision := some (2/3), recallVal := some 1,
            specificity := some (1/2), avgPrecision := some 1, brier := some (17/200) } := by
    norm_num [evalModelRow, roc_curve, thresholdsDesc, sortDesc, insertDesc,
      List.dedup_cons_of_not_mem, List.dedup_cons_of_mem, tpsAt, fpsAt, qdiv0,
      anyDxNeg, allDxLe, oLt, oLe, trapzO, oadd, osub, omul, ohalf, oneg, auc,
      precision_recall_curve, average_precision_score, apDiffs, np_where_gt,
      precision_score, recall_score, tpCount, fpCount, fnCount,
      specificity_calc, cmClasses, sortAsc, insertAsc, countPair,
      brier_score_loss, List.countP_cons, List.countP_nil, hne,
      Bool.or_eq_true, Bool.and_eq_true, decide_eq_true_eq]
  have hrow2 : evalModelRow [0, 0, 1, 1] [1/10, 2/5, 3/5, 9/10] (7/10) =
      .ok { aucRoc := some 1, prAuc := some 1, precision := some 1, recallVal := some (1/2),
            specificity := some 1, avgPrecision := some 1, brier := some (17/200) } := by
    norm_num [evalModelRow, roc_curve, thresholdsDesc, sortDesc, insertDesc,
      List.dedup_cons_of_not_mem, List.dedup_cons_of_mem, tpsAt, fpsAt, qdiv0,
      anyDxNeg, allDxLe, oLt, oLe, trapzO, oadd, osub, omul, ohalf, oneg, auc,
      precision_recall_curve, average_precision_score, apDiffs, np_where_gt,
      precision_score, recall_score, tpCount, fpCount, fnCount,
      specificity_calc, cmClasses, sortAsc, insertAsc, countPair,
      brier_score_loss, List.countP_cons, List.countP_nil, hne,
      Bool.or_eq_true, Bool.and_eq_true, decide_eq_true_eq]
  exact claim_C6_threshold_monotonic [0, 0, 1, 1] [1/10, 2/5, 3/5, 9/10] (3/10) (7/10)
    _ _ (by norm_num) (by norm_num) (by norm_num) hrow1 hrow2

/-- C7: on every valid input (non-empty model map, length-matched
probability vectors in the unit interval, labels with both classes,
threshold in (0,1)), the call returns a table all of whose metric values
are defined (not nan) and lie in the closed interval [0, 1]. -/
theorem claim_C7_values_unit_interval (y : List ℚ) (models : List (String × List ℚ))
    (t : ℚ) (hv : ValidInput y models) (ht : 0 < t ∧ t < 1) :
    ∃ tb, evaluate_model_metrics y models t = .ok tb ∧
      ∀ nr ∈ tb.models, ∀ m : Metric,
        ∃ q, (nr : String × ModelRow).2.get m = some q ∧ 0 ≤ q ∧ q ≤ 1 := by
  obtain ⟨tb, htb, hmodels, _⟩ := evaluate_model_metrics_valid hv
  refine ⟨tb, htb, ?_⟩
  intro nr hnr m
  rw [hmodels] at hnr
  obtain ⟨nm, hnm, rfl⟩ := List.mem_map.1 hnr
  exact cleanRow_get_bounds hv.1.1 hv.1.2.1 hv.1.2.2 (hv.2.2 nm hnm).1 (hv.2.2 nm hnm).2 m

/-- Witness for C7 at a concrete valid input. -/
theorem claim_C7_witness :
    ∃ tb, evaluate_model_metrics [0, 1] [("A", [1/4, 3/4])] (1/2) = .ok tb ∧
      ∀ nr ∈ tb.models, ∀ m : Metric,
        ∃ q, (nr : String × ModelRow).2.get m = some q ∧ 0 ≤ q ∧ q ≤ 1 :=
  claim_C7_values_unit_interval [0, 1] [("A", [1/4, 3/4])] (1/2)
    (by unfold ValidInput ValidLabels ValidProbs; norm_num) (by norm_num)

/-- C1: on every valid input, the returned table's "Best Model" entry of
each metric row is the model at the first position attaining the extreme
column value - the maximum for every metric except Brier Score, the
minimum for Brier Score; every earlier model scores strictly worse, so
ties resolve to the model first inserted into the model map. -/
theorem claim_C1_stable_best_selection (y : List ℚ) (models : List (String × List ℚ))
    (t : ℚ) (hv : ValidInput y models) :
    ∃ tb, evaluate_model_metrics y models t = .ok tb ∧
      ∀ m : Metric, ∃ k nr q,
        tb.models.get? k = some nr ∧ tb.bestFor m = some nr.1 ∧ nr.2.get m = some q ∧
        (∀ k' nr' q', tb.models.get? k' = some nr' → nr'.2.get m = some q' →
          (if m = Metric.brier then q ≤ q' else q' ≤ q)) ∧
        (∀ k', k' < k → ∀ nr' q', tb.models.get? k' = some nr' → nr'.2.get m = some q' →
          (if m = Metric.brier then q < q' else q' < q)) := by
  obtain ⟨tb, htb, hmodels, hbest⟩ := evaluate_model_metrics_valid hv
  refine ⟨tb, htb, ?_⟩
  intro m
  obtain ⟨s, hfor, hbm⟩ := hbest m
  obtain ⟨qs, hqs, _⟩ := exists_clean_scores (fun r : String × ModelRow => r.2.get m)
    (cleanRows y models t) (cleanRows_scores_some hv.1 hv.2.2)
  by_cases hb : m = Metric.brier
  · subst hb
    obtain ⟨k, nr, q, hok, hget, hq, hall, hearly⟩ :=
      bestModelFor_spec_min hqs (cleanRows_ne_nil hv.2.1)
    have hs : s = nr.1 := by
      rw [hbm] at hok
      exact Except.ok.inj hok
    refine ⟨k, nr, q, by rw [hmodels]; exact hget, by rw [hfor, hs], hq, ?_, ?_⟩
    · intro k' nr' q' hk' hq'
      rw [hmodels] at hk'
      rw [if_pos rfl]
      exact hall k' nr' q' hk' hq'
    · intro k' hklt nr' q' hk' hq'
      rw [hmodels] at hk'
      rw [if_pos rfl]
      exact hearly k' hklt nr' q' hk' hq'
  · obtain ⟨k, nr, q, hok, hget, hq, hall, hearly⟩ :=
      bestModelFor_spec_max hb hqs (cleanRows_ne_nil hv.2.1)
    have hs : s = nr.1 := by
      rw [hbm] at hok
      exact Except.ok.inj hok
    refine ⟨k, nr, q, by rw [hmodels]; exact hget, by rw [hfor, hs], hq, ?_, ?_⟩
    · intro k' nr' q' hk' hq'
      rw [hmodels] at hk'
      rw [if_neg hb]
      exact hall k' nr' q' hk' hq'
    · intro k' hklt nr' q' hk' hq'
      rw [hmodels] at hk'
      rw [if_neg hb]
      exact hearly k' hklt nr' q' hk' hq'

/-- Witness for C1 at a concrete valid two-model input. -/
theorem claim_C1_witness :
    ∃ tb, evaluate_model_metrics [0, 1] [("A", [1/4, 3/4]), ("B", [1/4, 3/4])] (1/2) =
        .ok tb ∧
      ∀ m : Metric, ∃ k nr q,
        tb.models.get? k = some nr ∧ tb.bestFor m = some nr.1 ∧ nr.2.get m = some q ∧
        (∀ k' nr' q', tb.models.get? k' = some nr' → nr'.2.get m = some q' →
          (if m = Metric.brier then q ≤ q' else q' ≤ q)) ∧
        (∀ k', k' < k → ∀ nr' q', tb.models.get? k' = some nr' → nr'.2.get m = some q' →
          (if m = Metric.brier then q < q' else q' < q)) :=
  claim_C1_stable_best_selection [0, 1] [("A", [1/4, 3/4]), ("B", [1/4, 3/4])] (1/2)
    (by unfold ValidInput ValidLabels ValidProbs; exact ⟨by norm_num, by simp, by norm_num⟩)

/-- C9: whenever `evaluate_model_metrics` returns a table, every "Best
Model" entry is the name of one of the models of the input model map. -/
theorem claim_C9_best_names_from_input (y : List ℚ) (models : List (String × List ℚ))
    (t : ℚ) (tb : MetricsTable) (h : evaluate_model_metrics y models t = .ok tb) :
    ∀ (m : Metric) (s : String), tb.bestFor m = some s → s ∈ models.map Prod.fst := by
  obtain ⟨hrows, hbest⟩ := evaluate_ok_inv h
  intro m s hlookup
  have hlk : tb.best.lookup m = some s := hlookup
  have hmem := lookup_mem tb.best m s hlk
  have hbm := bestAssign_ok_mem hbest (m, s) hmem
  have hmem2 : s ∈ tb.models.map Prod.fst := bestModelFor_ok_mem hbm
  rw [evalRows_ok_names hrows] at hmem2
  exact hmem2

/-- Witness for C9 at a concrete input: `"M"`, the best model of the AUC
ROC row of the returned table, is a key of the input model map. -/
theorem claim_C9_witness :
    "M" ∈ ([("M", [1/10, 2/5, 3/5, 9/10])] : List (String × List ℚ)).map Prod.fst := by
  have hne : ¬ ([0, 0, 1, 1] : List ℚ) = [] := by simp
  have htb : evaluate_model_metrics [0, 0, 1, 1] [("M", [1/10, 2/5, 3/5, 9/10])] (1/2) =
      .ok { models := [("M",
              { aucRoc := some 1, prAuc := some 1, precision := some 1, recallVal := some 1,
                specificity := some 1, avgPrecision := some 1, brier := some (17/200) })],
            best := [(.aucRoc, "M"), (.prAuc, "M"), (.precision, "M"), (.recallVal, "M"),
                     (.specificity, "M"), (.avgPrecision, "M"), (.brier, "M")] } := by
    norm_num [evaluate_model_metrics, evalRows, evalModelRow, roc_curve,
      thresholdsDesc, sortDesc, insertDesc,
      List.dedup_cons_of_not_mem, List.dedup_cons_of_mem, tpsAt, fpsAt, qdiv0,
      anyDxNeg, allDxLe, oLt, oLe, trapzO, oadd, osub, omul, ohalf, oneg, auc,
      precision_recall_curve, average_precision_score, apDiffs, np_where_gt,
      precision_score, recall_score, tpCount, fpCount, fnCount,
      specificity_calc, cmClasses, sortAsc, insertAsc, countPair,
      brier_score_loss, List.countP_cons, List.countP_nil, hne,
      Bool.or_eq_true, Bool.and_eq_true, decide_eq_true_eq,
      bestAssign, bestModelFor, idxExtreme, scanBest, metricOrder, ModelRow.get]
  exact claim_C9_best_names_from_input [0, 0, 1, 1] [("M", [1/10, 2/5, 3/5, 9/10])]
    (1/2) _ htb Metric.aucRoc "M" (by rfl)
